import Mathlib

/-!
# Stop-sequence detection and runner selection

A shallow embedding of `findStop`, `containsStopSuffix` and `truncateStop`
(`llama/runner/stop.go`) together with the `strings` functions and the slice
expression they rely on, of `GpuInfoList.ByLibrary` and `ByVariant.Less`
(`gpu/types.go`), and a model of `ServersForGpu`, whose source file is not
available, written from its specification and checked against the table of
`TestRefreshRunners`.

* A Go `string` is an immutable sequence of bytes: `GoString := List Byte`.
* Go `int` values are modelled by `Int`.  Every integer the code computes is
  an offset into, or a length of, a string held in memory, so 64-bit
  wrap-around cannot occur and is not modelled.
* A slice expression `s[lo:hi]` panics unless `0 ≤ lo ≤ hi ≤ len(s)`; the
  embedding makes this explicit with `Option` (`none` = run-time panic).
-/

/-- One byte of a Go string. -/
abbrev Byte := Fin 256

/-- A Go `string`: a finite sequence of bytes. -/
abbrev GoString := List Byte

/-- UTF-8 bytes of a Lean string literal (used to write down test inputs). -/
def str (s : String) : GoString :=
  s.data.flatMap fun c => (String.utf8EncodeChar c).map fun b => b.val

/-- Go slice expression `s[lo:hi]`; `none` models the out-of-range panic. -/
def sliceStr (s : GoString) (lo hi : Int) : Option GoString :=
  if 0 ≤ lo ∧ lo ≤ hi ∧ hi ≤ (s.length : Int) then
    some ((s.take hi.toNat).drop lo.toNat)
  else
    none

namespace strings

/-- Scan used by `Index`: the least offset `off + k` such that `substr` is a
prefix of the text `k` bytes further on, or `-1`. -/
def indexFrom (substr : GoString) : GoString → Int → Int
  | [], off => if substr.isPrefixOf [] then off else -1
  | c :: cs, off =>
    if substr.isPrefixOf (c :: cs) then off else indexFrom substr cs (off + 1)

/-- Go `strings.Index(s, substr)`: the index of the first instance of `substr`
in `s`, or `-1` if `substr` is not present in `s`. -/
def Index (s substr : GoString) : Int :=
  indexFrom substr s 0

/-- Go `strings.Contains(s, substr)`, defined there as `Index(s, substr) >= 0`. -/
def Contains (s substr : GoString) : Bool :=
  decide (Index s substr ≥ 0)

/-- Go `strings.HasSuffix(s, suffix)`, defined there as
`len(s) >= len(suffix) && s[len(s)-len(suffix):] == suffix`. -/
def HasSuffix (s suffix : GoString) : Bool :=
  decide (s.length ≥ suffix.length) && (s.drop (s.length - suffix.length) == suffix)

/-- Go `strings.Join(elems, "")`: the concatenation of `elems`. -/
def Join (elems : List GoString) : GoString :=
  elems.flatten

end strings

namespace runner

/-- Embedding of `findStop`: the first element of `stops`, in list order, that
`sequence` contains. -/
def findStop (sequence : GoString) : List GoString → Bool × GoString
  | [] => (false, [])
  | stop :: stops =>
    if strings.Contains sequence stop then (true, stop) else findStop sequence stops

/-- Inner loop of `containsStopSuffix`, for one `stop`; the list holds the
values of `i` still to be visited.  `some true` is the early `return true`,
`some false` means the loop ran to its end. -/
def containsStopSuffixInner (sequence stop : GoString) : List Nat → Option Bool
  | [] => some false
  | i :: is =>
    match sliceStr stop 0 i with
    | none => none
    | some p =>
      if strings.HasSuffix sequence p then some true
      else containsStopSuffixInner sequence stop is

/-- Embedding of `containsStopSuffix`; the inner loop visits
`i = 1, …, len(stop)`. -/
def containsStopSuffix (sequence : GoString) : List GoString → Option Bool
  | [] => some false
  | stop :: stops =>
    match containsStopSuffixInner sequence stop (List.range' 1 stop.length) with
    | none => none
    | some true => some true
    | some false => containsStopSuffix sequence stops

/-- The re-splitting loop of `truncateStop` (`for _, length := range lengths`),
with the loop state `result`, `tokenTruncated`, `start` passed explicitly. -/
def truncateStopLoop (joined : GoString) :
    List Int → List GoString → Bool → Int → Option (List GoString × Bool)
  | [], result, tokenTruncated, _ => some (result, tokenTruncated)
  | length :: lengths, result, tokenTruncated, start =>
    if start ≥ (joined.length : Int) then
      some (result, tokenTruncated)
    else
      let end0 := start + length
      let over := decide (end0 > (joined.length : Int))
      let end1 := if over then (joined.length : Int) else end0
      let tokenTruncated1 := if over then true else tokenTruncated
      match sliceStr joined start end1 with
      | none => none
      | some piece =>
        truncateStopLoop joined lengths (result ++ [piece]) tokenTruncated1 end1

/-- Embedding of `truncateStop`. -/
def truncateStop (pieces : List GoString) (stop : GoString) :
    Option (List GoString × Bool) :=
  let joined := strings.Join pieces
  let index := strings.Index joined stop
  if index = -1 then
    some (pieces, false)
  else
    match sliceStr joined 0 index with
    | none => none
    | some joined1 =>
      let lengths := pieces.map fun piece => (piece.length : Int)
      truncateStopLoop joined1 lengths [] false 0

/-- Closed form of the loop of `truncateStop`: `rem` is the retained text not
yet handed out (`joined[start:]`), the list holds the fragments whose lengths
the loop still has to visit. -/
def resplit : List GoString → GoString → List GoString × Bool
  | [], _ => ([], false)
  | p :: ps, rem =>
    if rem.length = 0 then ([], false)
    else if rem.length < p.length then ([rem], true)
    else ((rem.take p.length) :: (resplit ps (rem.drop p.length)).1,
          (resplit ps (rem.drop p.length)).2)

end runner

/-! ## Specification vocabulary -/

/-- The text `pre` is the part of `s` that lies strictly before the first
occurrence of `sub`: `sub` occurs in `s` right after `pre`, and no occurrence
of `sub` in `s` starts at a smaller offset. -/
def BeforeFirst (sub s pre : GoString) : Prop :=
  (∃ post, s = pre ++ sub ++ post) ∧
    ∀ pre1 post1, s = pre1 ++ sub ++ post1 → pre.length ≤ pre1.length

/-! ## Compute descriptors (`gpu/types.go`) -/

namespace strings

/-- Go `strings.Compare(a, b)`: `-1`, `0` or `+1` according to the bytewise
lexicographic comparison of `a` and `b` (Go's built-in string ordering). -/
def Compare : GoString → GoString → Int
  | [], [] => 0
  | [], _ :: _ => -1
  | _ :: _, [] => 1
  | x :: xs, y :: ys => if x < y then -1 else if y < x then 1 else Compare xs ys

end strings

namespace gpu

/-- The struct `GpuInfo`, with the embedded `memInfo` flattened; `uint64`
fields carry no arithmetic here and are natural numbers. -/
structure GpuInfo where
  TotalMemory : Nat := 0
  FreeMemory : Nat := 0
  FreeSwap : Nat := 0
  Library : GoString := []
  Variant : GoString := []
  MinimumMemory : Nat := 0
  DependencyPath : GoString := []
  EnvWorkarounds : List (GoString × GoString) := []
  UnreliableFreeMemory : Bool := false
  ID : GoString := []
  Name : GoString := []
  Compute : GoString := []
  DriverMajor : Int := 0
  DriverMinor : Int := 0
  deriving DecidableEq

/-- The type `GpuInfoList`. -/
abbrev GpuInfoList := List GpuInfo

/-- Inner loop of `ByLibrary` (`for i, lib := range libs`): the first index
`i`, counted from `i0`, whose entry equals `library`; `none` when the loop ends
with `found = false`. -/
def byLibraryFind (library : GoString) : List GoString → Nat → Option Nat
  | [], _ => none
  | lib :: libs, i0 => if lib = library then some i0 else byLibraryFind library libs (i0 + 1)

/-- The statement `resp[i] = append(resp[i], info)`; `none` models the
index-out-of-range panic. -/
def byLibraryAppendAt (resp : List GpuInfoList) (i : Nat) (info : GpuInfo) :
    Option (List GpuInfoList) :=
  match resp[i]? with
  | none => none
  | some group => some (resp.set i (group ++ [info]))

/-- Outer loop of `ByLibrary` (`for _, info := range l`) with the loop state
`resp`, `libs` passed explicitly. -/
def byLibraryLoop : List GpuInfo → List GpuInfoList → List GoString → Option (List GpuInfoList)
  | [], resp, _ => some resp
  | info :: l, resp, libs =>
    match byLibraryFind info.Library libs 0 with
    | some i =>
      match byLibraryAppendAt resp i info with
      | none => none
      | some resp1 => byLibraryLoop l resp1 libs
    | none => byLibraryLoop l (resp ++ [[info]]) (libs ++ [info.Library])

/-- Embedding of `GpuInfoList.ByLibrary`. -/
def ByLibrary (l : GpuInfoList) : Option (List GpuInfoList) :=
  byLibraryLoop l [] []

/-- Go index expression `a[i]` on a slice; `none` models the out-of-range
panic. -/
def indexAt (a : List GpuInfo) (i : Int) : Option GpuInfo :=
  if 0 ≤ i then a[i.toNat]? else none

/-- Embedding of `ByVariant.Less`. -/
def ByVariantLess (a : List GpuInfo) (i j : Int) : Option Bool :=
  match indexAt a i, indexAt a j with
  | some x, some y => some (decide (strings.Compare x.Variant y.Variant < 0))
  | _, _ => none

/-- The distinct values of a list in order of first appearance. -/
def firstAppearances : List GoString → List GoString
  | [] => []
  | x :: xs => x :: (firstAppearances xs).filter fun y => decide (y ≠ x)

/-- The groups of `l` for the library names `libs`: for each name, in the
order given, the entries of `l` with that `Library`, in their input order. -/
def groupsFor (l : GpuInfoList) (libs : List GoString) : List GpuInfoList :=
  libs.map fun lib => l.filter fun g => decide (g.Library = lib)

/-- Specification of `ByLibrary` in the words of its description: for each
distinct `Library` value of `l`, taken in order of first appearance, the
sublist of `l` whose entries have that `Library`. -/
def byLibrarySpec (l : GpuInfoList) : List GpuInfoList :=
  groupsFor l (firstAppearances (l.map fun g => g.Library))

end gpu

/-! ## Runner selection (`runners`) -/

namespace runners

/-- Modelled from the spec: the `RunnerVariant` of the data model, a runner
directory of the cache identified by its library tag and its variant tag (the
empty variant is the bare runner).  The file that declares the runner cache is
not among the sources. -/
structure RunnerVariant where
  library : GoString
  variant : GoString
  deriving DecidableEq

/-- Modelled from the spec: the directory name `<library>[_<variant>]` of a
runner variant (the declaration is not among the sources). -/
def RunnerVariant.name (r : RunnerVariant) : GoString :=
  if r.variant = [] then r.library else r.library ++ str "_" ++ r.variant

/-- Modelled from the spec: the candidates one descriptor contributes to
`ServersForGpu` (selection steps 1 to 4; the function is not among the
sources).  The group of the descriptor's library is looked up among the
available variants; the exact match of the requested variant comes first, the
other variants of the library follow in ascending lexicographic order of their
variant string.  A descriptor of library `cpu` contributes its exact match
only, as the testable properties of the spec and `TestRefreshRunners` require. -/
def candidatesFor (available : List RunnerVariant) (d : gpu.GpuInfo) : List RunnerVariant :=
  let group := available.filter fun r => decide (r.library = d.Library)
  let exact := group.filter fun r => decide (r.variant = d.Variant)
  let others := (group.filter fun r => decide (r.variant ≠ d.Variant)).insertionSort
    fun a b => strings.Compare a.variant b.variant ≤ 0
  if d.Library = str "cpu" then exact else exact ++ others

/-- Modelled from the spec: the platform test of selection step 5; the bare
`cpu` fallback is suppressed on darwin/arm64 (the platform named by
`TestRefreshRunners`). -/
def cpuFallbackSuppressed (goos goarch : GoString) : Bool :=
  decide (goos = str "darwin") && decide (goarch = str "arm64")

/-- Modelled from the spec: `ServersForGpu` (selection algorithm of the runner
selector; the function is not among the sources, only its test is).  The
descriptors are visited in input order and their candidates collected without
duplicates, keeping the first occurrence of each name.  After the matches of
the GPU libraries the bare `cpu` runner is appended last when the platform
does not suppress it, the cache holds it and it is not listed yet; it is the
fallback of descriptors of a non-`cpu` library and of an otherwise empty
answer, so a `cpu` descriptor with an exact match yields that match alone. -/
def ServersForGpu (goos goarch : GoString) (available : List RunnerVariant)
    (descriptors : List gpu.GpuInfo) : List GoString :=
  let ranked := gpu.firstAppearances
    ((descriptors.flatMap (candidatesFor available)).map RunnerVariant.name)
  let fallbackWanted := !cpuFallbackSuppressed goos goarch &&
    (descriptors.any (fun d => decide (d.Library ≠ str "cpu")) || ranked.isEmpty)
  let cpuRunner : RunnerVariant := ⟨str "cpu", []⟩
  if fallbackWanted = true ∧ cpuRunner ∈ available ∧ cpuRunner.name ∉ ranked then
    ranked ++ [cpuRunner.name]
  else
    ranked

/-- The cache of `TestRefreshRunners`. -/
def testCache : List RunnerVariant :=
  [⟨str "cpu", []⟩, ⟨str "cpu", str "avx"⟩, ⟨str "foo", str "v12"⟩, ⟨str "foo", str "v11"⟩,
    ⟨str "bar", []⟩]

end runners

/-! ## Facts about the `strings` functions -/

namespace strings

theorem isPrefixOf_eq_true_iff (a b : GoString) : a.isPrefixOf b = true ↔ a <+: b := by
  simp

theorem prefix_drop_of_occurrence {sub s pre post : GoString}
    (h : s = pre ++ sub ++ post) : sub <+: s.drop pre.length := by
  subst h
  simp [List.append_assoc]

theorem occurrence_of_prefix_drop {sub s : GoString} {k : Nat}
    (hk : k ≤ s.length) (h : sub <+: s.drop k) :
    ∃ post, s = s.take k ++ sub ++ post ∧ (s.take k).length = k := by
  obtain ⟨post, hpost⟩ := h
  refine ⟨post, ?_, by simp [hk]⟩
  rw [List.append_assoc, hpost, List.take_append_drop]

theorem indexFrom_spec (sub : GoString) :
    ∀ (s : GoString) (off : Int),
      (indexFrom sub s off = -1 ∧ ∀ j, j ≤ s.length → ¬ sub <+: s.drop j) ∨
      (∃ k : Nat, k ≤ s.length ∧ indexFrom sub s off = off + k ∧ sub <+: s.drop k ∧
        ∀ j, j < k → ¬ sub <+: s.drop j)
  | [], off => by
    by_cases h : sub.isPrefixOf [] = true
    · right
      refine ⟨0, le_rfl, by simp [indexFrom, h], ?_, by simp⟩
      simpa using h
    · left
      refine ⟨by simp [indexFrom, h], ?_⟩
      intro j _
      simpa using h
  | c :: cs, off => by
    by_cases h : sub.isPrefixOf (c :: cs) = true
    · right
      refine ⟨0, Nat.zero_le _, by simp [indexFrom, h], ?_, by simp⟩
      simpa using h
    · have hstep : indexFrom sub (c :: cs) off = indexFrom sub cs (off + 1) := by
        simp [indexFrom, h]
      rcases indexFrom_spec sub cs (off + 1) with ⟨h1, h2⟩ | ⟨k, hk, h1, h2, h3⟩
      · left
        refine ⟨by rw [hstep, h1], ?_⟩
        intro j hj
        cases j with
        | zero => simpa using h
        | succ j => simpa using h2 j (by simpa using hj)
      · right
        refine ⟨k + 1, by simpa using hk, ?_, by simpa using h2, ?_⟩
        · rw [hstep, h1]; push_cast; ring
        · intro j hj
          cases j with
          | zero => simpa using h
          | succ j => simpa using h3 j (by omega)

theorem Index_of_not_infix {s sub : GoString} (h : ¬ sub <:+: s) : Index s sub = -1 := by
  rcases indexFrom_spec sub s 0 with ⟨h1, _⟩ | ⟨k, hk, _, h2, _⟩
  · exact h1
  · exact absurd ((List.IsPrefix.isInfix h2).trans (List.drop_suffix k s).isInfix) h

theorem Index_of_infix {s sub : GoString} (h : sub <:+: s) :
    ∃ k : Nat, k ≤ s.length ∧ Index s sub = (k : Int) ∧ BeforeFirst sub s (s.take k) := by
  rcases indexFrom_spec sub s 0 with ⟨_, h2⟩ | ⟨k, hk, h1, h2, h3⟩
  · obtain ⟨pre, post, hpp⟩ := h
    have hle : pre.length ≤ s.length := by rw [← hpp]; simp
    exact absurd (prefix_drop_of_occurrence hpp.symm) (h2 pre.length hle)
  · refine ⟨k, hk, by simpa [Index] using h1, ?_, ?_⟩
    · obtain ⟨post, hpost, _⟩ := occurrence_of_prefix_drop hk h2
      exact ⟨post, hpost⟩
    · intro pre1 post1 h1
      by_contra hlt
      have hlt : pre1.length < k := by
        have : (s.take k).length = k := by simp [hk]
        omega
      exact h3 pre1.length hlt (prefix_drop_of_occurrence h1)

theorem Contains_eq_true_iff (s sub : GoString) : Contains s sub = true ↔ sub <:+: s := by
  constructor
  · intro h
    by_contra hn
    have := Index_of_not_infix hn
    simp [Contains, this] at h
  · intro h
    obtain ⟨k, _, hk, _⟩ := Index_of_infix h
    simp [Contains, hk]

theorem HasSuffix_eq_true_iff (s suffix : GoString) :
    HasSuffix s suffix = true ↔ suffix <:+ s := by
  unfold HasSuffix
  constructor
  · intro h
    simp only [Bool.and_eq_true, decide_eq_true_eq, beq_iff_eq] at h
    rw [← h.2]
    exact List.drop_suffix _ _
  · rintro ⟨t, rfl⟩
    simp

end strings

/-! ## The re-splitting loop -/

namespace runner

theorem resplit_nil_text (ps : List GoString) : resplit ps [] = ([], false) := by
  cases ps <;> simp [resplit]

theorem sliceStr_of_le (s : GoString) {lo hi : Nat} (h1 : lo ≤ hi) (h2 : hi ≤ s.length) :
    sliceStr s (lo : Int) (hi : Int) = some ((s.take hi).drop lo) := by
  have h : (0 : Int) ≤ (lo : Int) ∧ (lo : Int) ≤ (hi : Int) ∧ (hi : Int) ≤ (s.length : Int) :=
    ⟨Int.ofNat_nonneg lo, Int.ofNat_le.mpr h1, Int.ofNat_le.mpr h2⟩
  simp [sliceStr, h]

theorem truncateStopLoop_eq (joined : GoString) :
    ∀ (ps : List GoString) (result : List GoString) (t : Bool) (n : Nat),
      n ≤ joined.length →
      truncateStopLoop joined (ps.map fun piece => (piece.length : Int)) result t (n : Int)
        = some (result ++ (resplit ps (joined.drop n)).1,
                t || (resplit ps (joined.drop n)).2)
  | [], result, t, n, _ => by simp [truncateStopLoop, resplit]
  | p :: ps, result, t, n, hn => by
    simp only [List.map_cons, truncateStopLoop]
    by_cases hge : (n : Int) ≥ (joined.length : Int)
    · have hn2 : joined.length ≤ n := by exact_mod_cast hge
      simp [hge, resplit, List.drop_eq_nil_of_le hn2]
    · have hlt : n < joined.length := by
        have : ¬ joined.length ≤ n := fun h => hge (by exact_mod_cast h)
        omega
      have hrem : (joined.drop n).length = joined.length - n := by simp
      simp only [hge, if_false]
      by_cases hover : (n : Int) + (p.length : Int) > (joined.length : Int)
      · have hover2 : joined.length < n + p.length := by exact_mod_cast hover
        simp only [hover, decide_True, if_true]
        rw [sliceStr_of_le joined hn le_rfl]
        simp only [List.take_length]
        rw [truncateStopLoop_eq joined ps _ true joined.length le_rfl]
        have h1 : ¬ (joined.length - n = 0) := by omega
        have h2 : joined.length - n < p.length := by omega
        simp [resplit, resplit_nil_text, h1, h2]
      · have hover2 : n + p.length ≤ joined.length := by
          have : ¬ joined.length < n + p.length := fun h => hover (by exact_mod_cast h)
          omega
        simp only [hover, decide_False, if_false, Bool.false_eq_true]
        have hcast : (n : Int) + (p.length : Int) = ((n + p.length : Nat) : Int) := by
          push_cast; rfl
        rw [hcast, sliceStr_of_le joined (Nat.le_add_right n p.length) hover2]
        dsimp only
        rw [truncateStopLoop_eq joined ps _ t (n + p.length) hover2]
        have h1 : ¬ (joined.length - n = 0) := by omega
        have h2 : ¬ (joined.length - n < p.length) := by omega
        have h3 : List.drop n (List.take (n + p.length) joined)
            = List.take p.length (List.drop n joined) := by
          rw [List.drop_take]; simp
        have h4 : List.drop (n + p.length) joined = List.drop p.length (List.drop n joined) := by
          rw [List.drop_drop, Nat.add_comm]
        rw [h3, h4]
        simp [resplit, h1, h2]

theorem truncateStop_of_not_infix {pieces : List GoString} {stop : GoString}
    (h : ¬ stop <:+: strings.Join pieces) : truncateStop pieces stop = some (pieces, false) := by
  simp [truncateStop, strings.Index_of_not_infix h]

theorem truncateStop_of_infix {pieces : List GoString} {stop : GoString}
    (h : stop <:+: strings.Join pieces) :
    ∃ pre, BeforeFirst stop (strings.Join pieces) pre ∧ pre <+: strings.Join pieces ∧
      truncateStop pieces stop = some (resplit pieces pre) := by
  obtain ⟨k, hk, hidx, hfirst⟩ := strings.Index_of_infix h
  refine ⟨(strings.Join pieces).take k, hfirst, List.take_prefix _ _, ?_⟩
  have hne : ¬ ((k : Int) = -1) := by omega
  have hsl := sliceStr_of_le (strings.Join pieces) (Nat.zero_le k) hk
  simp only [Nat.cast_zero] at hsl
  simp only [truncateStop, hidx, hne, if_false, hsl, List.drop_zero]
  have := truncateStopLoop_eq ((strings.Join pieces).take k) pieces [] false 0 (Nat.zero_le _)
  simpa using this

/-- Shape of the output of the re-splitting loop when the retained text `rem`
is a prefix of the concatenation of the fragments: either a whole number of
fragments was handed out, or a whole number followed by a non-empty strict
prefix of the next fragment. -/
theorem resplit_shape :
    ∀ (ps : List GoString) (rem : GoString), rem <+: strings.Join ps →
      (∃ m, m ≤ ps.length ∧ resplit ps rem = (ps.take m, false) ∧
        strings.Join (ps.take m) = rem ∧
        ∀ i p, i < m → ps[i]? = some p → p = [] → i + 1 < m) ∨
      (∃ m r p, m < ps.length ∧ ps[m]? = some p ∧
        resplit ps rem = (ps.take m ++ [r], true) ∧
        strings.Join (ps.take m) ++ r = rem ∧ r ≠ [] ∧ r <+: p ∧ r.length < p.length)
  | [], rem, h => by
    left
    have : rem = [] := by simpa [strings.Join] using h
    exact ⟨0, le_rfl, by simp [resplit], by simp [strings.Join, this], by simp⟩
  | p :: ps, rem, h => by
    by_cases h0 : rem.length = 0
    · left
      have : rem = [] := List.length_eq_zero.mp h0
      exact ⟨0, Nat.zero_le _, by simp [resplit, this], by simp [strings.Join, this], by simp⟩
    · have hjoin : strings.Join (p :: ps) = p ++ strings.Join ps := by simp [strings.Join]
      by_cases hlt : rem.length < p.length
      · right
        have hpre : rem <+: p := by
          rw [hjoin] at h
          exact List.prefix_of_prefix_length_le h (List.prefix_append _ _) (Nat.le_of_lt hlt)
        refine ⟨0, rem, p, by simp, by simp, by simp [resplit, h0, hlt], by simp [strings.Join],
          ?_, hpre, hlt⟩
        intro hnil
        exact h0 (by simp [hnil])
      · have hple : p.length ≤ rem.length := Nat.le_of_not_lt hlt
        have hp : p <+: rem := by
          rw [hjoin] at h
          exact List.prefix_of_prefix_length_le (List.prefix_append _ _) h hple
        obtain ⟨rem1, hrem1⟩ := hp
        subst hrem1
        have hrest : rem1 <+: strings.Join ps := by
          rw [hjoin] at h
          exact (List.prefix_append_right_inj p).mp h
        have hstep : resplit (p :: ps) (p ++ rem1)
            = (p :: (resplit ps rem1).1, (resplit ps rem1).2) := by
          rw [resplit, if_neg h0, if_neg hlt]
          simp
        rcases resplit_shape ps rem1 hrest with ⟨m, hm, hres, hj, hemp⟩ | ⟨m, r, q, hm, hq, hres, hj, hr⟩
        · left
          refine ⟨m + 1, by simpa using hm, by simp [hstep, hres], ?_, ?_⟩
          · simp only [List.take_succ_cons, hjoin] at *
            simp [strings.Join] at hj ⊢
            exact hj
          · intro i a hi ha hnil
            cases i with
            | zero =>
              simp at ha
              subst ha
              subst hnil
              simp at h0
              by_contra hm0
              have hm0 : m = 0 := by omega
              subst hm0
              simp [strings.Join] at hj
              exact h0 hj
            | succ i =>
              have := hemp i a (by omega) (by simpa using ha) hnil
              omega
        · right
          refine ⟨m + 1, r, q, by simpa using hm, by simpa using hq, by simp [hstep, hres], ?_, hr⟩
          simp [strings.Join] at hj ⊢
          exact hj

end runner

/-! ## The table of `TestTruncateStop`, evaluated on the embedding -/

namespace runner

theorem test_truncateStop_single_word :
    truncateStop [str "hello", str "world"] (str "world") = some ([str "hello"], false) := by
  decide

theorem test_truncateStop_partial :
    truncateStop [str "hello", str "wor"] (str "or") = some ([str "hello", str "w"], true) := by
  decide

theorem test_truncateStop_suffix :
    truncateStop [str "Hello", str " there", str "!"] (str "!")
      = some ([str "Hello", str " there"], false) := by
  decide

theorem test_truncateStop_suffix_partial :
    truncateStop [str "Hello", str " the", str "re!"] (str "there!")
      = some ([str "Hello", str " "], true) := by
  decide

theorem test_truncateStop_middle :
    truncateStop [str "hello", str " wor"] (str "llo w") = some ([str "he"], true) := by
  decide

end runner

/-! ## Properties of `truncateStop` -/

namespace runner

theorem join_take_length_mono (ps : List GoString) {k m : Nat} (h : k ≤ m) :
    (strings.Join (ps.take k)).length ≤ (strings.Join (ps.take m)).length := by
  obtain ⟨t, ht⟩ := List.take_prefix_take_left ps h
  rw [← ht]
  simp [strings.Join]

theorem join_take_succ {ps : List GoString} {m : Nat} {p : GoString} (h : ps[m]? = some p) :
    strings.Join (ps.take (m + 1)) = strings.Join (ps.take m) ++ p := by
  simp [strings.Join, List.take_succ, h]

theorem resplit_join {ps : List GoString} {rem : GoString} (h : rem <+: strings.Join ps) :
    strings.Join (resplit ps rem).1 = rem := by
  rcases resplit_shape ps rem h with ⟨m, _, hres, hj, _⟩ | ⟨m, r, p, _, _, hres, hj, _⟩
  · rw [hres]; exact hj
  · rw [hres]
    simpa [strings.Join] using hj

theorem not_infix_before_first {sub s pre : GoString} (hne : sub ≠ [])
    (h : BeforeFirst sub s pre) : ¬ sub <:+: pre := by
  rintro ⟨a, c, hac⟩
  obtain ⟨⟨post, hpost⟩, hmin⟩ := h
  have hlen := hmin a (c ++ sub ++ post) (by rw [hpost, ← hac]; simp [List.append_assoc])
  have h1 : pre.length = a.length + sub.length + c.length := by
    rw [← hac]; simp [Nat.add_assoc]
  have h2 : 0 < sub.length := List.length_pos.mpr hne
  omega

/-- C1: when `stop` occurs in the concatenation of `pieces`, `truncateStop`
returns fragments whose concatenation is exactly the part of the concatenation
of `pieces` strictly before the first occurrence of `stop`. -/
theorem truncateStop_concat_before_first (pieces : List GoString) (stop : GoString)
    (h : stop <:+: strings.Join pieces) :
    ∃ result b, truncateStop pieces stop = some (result, b) ∧
      BeforeFirst stop (strings.Join pieces) (strings.Join result) := by
  obtain ⟨pre, hfirst, hpre, heq⟩ := truncateStop_of_infix h
  refine ⟨(resplit pieces pre).1, (resplit pieces pre).2, heq, ?_⟩
  rw [resplit_join hpre]
  exact hfirst

theorem truncateStop_concat_before_first_witness :
    str "or" <:+: strings.Join [str "hello", str "wor"] ∧
    ∃ result b, truncateStop [str "hello", str "wor"] (str "or") = some (result, b) ∧
      BeforeFirst (str "or") (strings.Join [str "hello", str "wor"]) (strings.Join result) :=
  ⟨by decide, truncateStop_concat_before_first _ _ (by decide)⟩

/-- C2: when `stop` does not occur in the concatenation of `pieces`,
`truncateStop` returns `pieces` itself and `tokenTruncated = false`. -/
theorem truncateStop_absent_unchanged (pieces : List GoString) (stop : GoString)
    (h : ¬ stop <:+: strings.Join pieces) :
    truncateStop pieces stop = some (pieces, false) :=
  truncateStop_of_not_infix h

theorem truncateStop_absent_unchanged_witness :
    ¬ str "xyz" <:+: strings.Join [str "hello", str "", str "world"] ∧
    truncateStop [str "hello", str "", str "world"] (str "xyz")
      = some ([str "hello", str "", str "world"], false) :=
  ⟨by decide, truncateStop_absent_unchanged _ _ (by decide)⟩

/-- C3: when `stop` occurs in the concatenation of `pieces`, the boolean
returned by `truncateStop` is `true` exactly when the offset of the first
occurrence (the length of the text before it) differs from the total length of
the first `k` fragments for every `k` with `0 ≤ k ≤ len(pieces)`; on a
fragment boundary it is `false`. -/
theorem truncateStop_truncated_iff_inside (pieces : List GoString) (stop : GoString)
    (h : stop <:+: strings.Join pieces) :
    ∃ result b pre, truncateStop pieces stop = some (result, b) ∧
      BeforeFirst stop (strings.Join pieces) pre ∧
      (b = true ↔
        ∀ k, k ≤ pieces.length → pre.length ≠ (strings.Join (pieces.take k)).length) := by
  obtain ⟨pre, hfirst, hpre, heq⟩ := truncateStop_of_infix h
  refine ⟨(resplit pieces pre).1, (resplit pieces pre).2, pre, heq, hfirst, ?_⟩
  rcases resplit_shape pieces pre hpre with ⟨m, hm, hres, hj, _⟩ | ⟨m, r, p, hm, hp, hres, hj, hr, _, hlt⟩
  · rw [hres]
    constructor
    · intro hb; cases hb
    · intro hall
      exact absurd (by rw [hj]) (hall m hm)
  · rw [hres]
    constructor
    · intro _ k _ hk
      have hlen : pre.length = (strings.Join (pieces.take m)).length + r.length := by
        rw [← hj]; simp
      have hrpos : 0 < r.length := List.length_pos.mpr hr
      by_cases hkm : k ≤ m
      · have := join_take_length_mono pieces hkm
        omega
      · have h1 := join_take_length_mono pieces (show m + 1 ≤ k by omega)
        rw [join_take_succ hp] at h1
        simp only [List.length_append] at h1
        omega
    · intro _; rfl

theorem truncateStop_truncated_iff_inside_witness :
    str "llo w" <:+: strings.Join [str "hello", str " wor"] ∧
    ∃ result b pre, truncateStop [str "hello", str " wor"] (str "llo w") = some (result, b) ∧
      BeforeFirst (str "llo w") (strings.Join [str "hello", str " wor"]) pre ∧
      (b = true ↔
        ∀ k, k ≤ [str "hello", str " wor"].length →
          pre.length ≠ (strings.Join ([str "hello", str " wor"].take k)).length) :=
  ⟨by decide, truncateStop_truncated_iff_inside _ _ (by decide)⟩

/-- C4: for a non-empty `stop`, the concatenation of the fragments returned by
`truncateStop` never contains `stop`. -/
theorem truncateStop_result_free_of_stop (pieces : List GoString) (stop : GoString)
    (hne : stop ≠ []) :
    ∃ result b, truncateStop pieces stop = some (result, b) ∧
      ¬ stop <:+: strings.Join result := by
  by_cases h : stop <:+: strings.Join pieces
  · obtain ⟨pre, hfirst, hpre, heq⟩ := truncateStop_of_infix h
    refine ⟨(resplit pieces pre).1, (resplit pieces pre).2, heq, ?_⟩
    rw [resplit_join hpre]
    exact not_infix_before_first hne hfirst
  · exact ⟨pieces, false, truncateStop_of_not_infix h, h⟩

theorem truncateStop_result_free_of_stop_witness :
    str "there!" ≠ [] ∧
    ∃ result b, truncateStop [str "Hello", str " the", str "re!"] (str "there!")
        = some (result, b) ∧
      ¬ str "there!" <:+: strings.Join result :=
  ⟨by decide, truncateStop_result_free_of_stop _ _ (by decide)⟩

end runner

/-! ## Properties of `findStop` and `containsStopSuffix` -/

namespace runner

theorem findStop_cases (sequence : GoString) :
    ∀ stops : List GoString,
      (∃ (i : Nat) (s : GoString), stops[i]? = some s ∧ s <:+: sequence ∧
        (∀ (j : Nat) (t : GoString), j < i → stops[j]? = some t → ¬ t <:+: sequence) ∧
        findStop sequence stops = (true, s)) ∨
      ((∀ s, s ∈ stops → ¬ s <:+: sequence) ∧ findStop sequence stops = (false, []))
  | [] => by
    right
    exact ⟨by simp, rfl⟩
  | stop :: stops => by
    by_cases hc : strings.Contains sequence stop = true
    · left
      refine ⟨0, stop, by simp, (strings.Contains_eq_true_iff _ _).mp hc, ?_, by simp [findStop, hc]⟩
      intro j t hj
      omega
    · have hstep : findStop sequence (stop :: stops) = findStop sequence stops := by
        simp [findStop, hc]
      have hno : ¬ stop <:+: sequence := fun h => hc ((strings.Contains_eq_true_iff _ _).mpr h)
      rcases findStop_cases sequence stops with ⟨i, s, hi, hs, hmin, hres⟩ | ⟨hall, hres⟩
      · left
        refine ⟨i + 1, s, by simpa using hi, hs, ?_, by rw [hstep, hres]⟩
        intro j t hj ht
        cases j with
        | zero =>
          have : stop = t := by simpa using ht
          exact this ▸ hno
        | succ j => exact hmin j t (by omega) (by simpa using ht)
      · right
        refine ⟨?_, by rw [hstep, hres]⟩
        intro s hs
        rcases List.mem_cons.mp hs with rfl | hs
        · exact hno
        · exact hall s hs

theorem containsStopSuffixInner_spec (sequence stop : GoString) :
    ∀ idxs : List Nat, (∀ i, i ∈ idxs → i ≤ stop.length) →
      ∃ b, containsStopSuffixInner sequence stop idxs = some b ∧
        (b = true ↔ ∃ i, i ∈ idxs ∧ stop.take i <:+ sequence)
  | [], _ => ⟨false, rfl, by simp⟩
  | i :: idxs, hle => by
    have hi : i ≤ stop.length := hle i (List.mem_cons_self _ _)
    have hsl : sliceStr stop 0 (i : Int) = some (stop.take i) := by
      have := sliceStr_of_le stop (Nat.zero_le i) hi
      simpa using this
    by_cases hs : strings.HasSuffix sequence (stop.take i) = true
    · refine ⟨true, by simp [containsStopSuffixInner, hsl, hs], ?_⟩
      simp only [true_iff]
      exact ⟨i, List.mem_cons_self _ _, (strings.HasSuffix_eq_true_iff _ _).mp hs⟩
    · obtain ⟨b, hb, hiff⟩ := containsStopSuffixInner_spec sequence stop idxs
        (fun j hj => hle j (List.mem_cons_of_mem _ hj))
      refine ⟨b, by simp [containsStopSuffixInner, hsl, hs, hb], ?_⟩
      rw [hiff]
      constructor
      · rintro ⟨j, hj, hsuf⟩
        exact ⟨j, List.mem_cons_of_mem _ hj, hsuf⟩
      · rintro ⟨j, hj, hsuf⟩
        rcases List.mem_cons.mp hj with rfl | hj
        · exact absurd ((strings.HasSuffix_eq_true_iff _ _).mpr hsuf) hs
        · exact ⟨j, hj, hsuf⟩

theorem containsStopSuffix_cases (sequence : GoString) :
    ∀ stops : List GoString,
      ∃ b, containsStopSuffix sequence stops = some b ∧
        (b = true ↔
          ∃ s, s ∈ stops ∧ ∃ i, 1 ≤ i ∧ i ≤ s.length ∧ s.take i <:+ sequence)
  | [] => ⟨false, rfl, by simp⟩
  | stop :: stops => by
    obtain ⟨b, hb, hiff⟩ := containsStopSuffixInner_spec sequence stop
      (List.range' 1 stop.length) (by
        intro i hi
        have := List.mem_range'_1.mp hi
        omega)
    have hiff2 : b = true ↔ ∃ i, 1 ≤ i ∧ i ≤ stop.length ∧ stop.take i <:+ sequence := by
      rw [hiff]
      constructor
      · rintro ⟨i, hi, hs⟩
        have := List.mem_range'_1.mp hi
        exact ⟨i, this.1, by omega, hs⟩
      · rintro ⟨i, h1, h2, hs⟩
        exact ⟨i, List.mem_range'_1.mpr ⟨h1, by omega⟩, hs⟩
    cases b with
    | true =>
      refine ⟨true, by simp [containsStopSuffix, hb], ?_⟩
      simp only [true_iff]
      exact ⟨stop, List.mem_cons_self _ _, hiff2.mp rfl⟩
    | false =>
      obtain ⟨b2, hb2, hiff3⟩ := containsStopSuffix_cases sequence stops
      refine ⟨b2, by simp [containsStopSuffix, hb, hb2], ?_⟩
      rw [hiff3]
      constructor
      · rintro ⟨s, hs, h⟩
        exact ⟨s, List.mem_cons_of_mem _ hs, h⟩
      · rintro ⟨s, hs, h⟩
        rcases List.mem_cons.mp hs with rfl | hs
        · exact absurd (hiff2.mpr h) (by simp)
        · exact ⟨s, hs, h⟩

end runner

namespace runner

/-- C5: flush safety of the lookahead check.  If `findStop` reports not-found
on `T` and `containsStopSuffix` is false on `T`, then in `T` followed by any
continuation `X` every occurrence of every configured stop phrase starts at an
offset `≥ len(T)`. -/
theorem flush_safe_after_both_checks (T : GoString) (stops : List GoString)
    (hfind : (findStop T stops).1 = false)
    (hsuf : containsStopSuffix T stops = some false)
    (X s pre post : GoString) (hs : s ∈ stops) (hocc : T ++ X = pre ++ s ++ post) :
    T.length ≤ pre.length := by
  by_contra hlt
  have hlt : pre.length < T.length := Nat.lt_of_not_le hlt
  have hnone : ∀ t, t ∈ stops → ¬ t <:+: T := by
    rcases findStop_cases T stops with ⟨_, _, _, _, _, hres⟩ | ⟨hall, _⟩
    · rw [hres] at hfind; cases hfind
    · exact hall
  have hnosuf : ¬ ∃ t, t ∈ stops ∧ ∃ i, 1 ≤ i ∧ i ≤ t.length ∧ t.take i <:+ T := by
    obtain ⟨b, hb, hiff⟩ := containsStopSuffix_cases T stops
    rw [hsuf] at hb
    have hb : b = false := by cases hb; rfl
    intro hex
    have := hiff.mpr hex
    rw [hb] at this
    cases this
  have hT : T <+: T ++ X := List.prefix_append _ _
  have hps : pre ++ s <+: T ++ X := ⟨post, hocc.symm⟩
  have hp : pre <+: T ++ X := ⟨s ++ post, by rw [hocc]; simp [List.append_assoc]⟩
  by_cases hcase : pre.length + s.length ≤ T.length
  · have hin : pre ++ s <+: T :=
      List.prefix_of_prefix_length_le hps hT (by simpa using hcase)
    obtain ⟨t, ht⟩ := hin
    exact hnone s hs ⟨pre, t, ht⟩
  · have hTin : T <+: pre ++ s :=
      List.prefix_of_prefix_length_le hT hps (by simp; omega)
    have hpT : pre <+: T := List.prefix_of_prefix_length_le hp hT (Nat.le_of_lt hlt)
    obtain ⟨u, hu⟩ := hpT
    subst hu
    have hus : u <+: s := (List.prefix_append_right_inj pre).mp hTin
    have hulen : u.length ≤ s.length := hus.length_le
    have hupos : 1 ≤ u.length := by
      simp only [List.length_append] at hlt
      omega
    refine hnosuf ⟨s, hs, u.length, hupos, hulen, ?_⟩
    rw [← List.prefix_iff_eq_take.mp hus]
    exact List.suffix_append _ _

theorem flush_safe_after_both_checks_witness :
    (findStop (str "hello") [str "xyz", str "world"]).1 = false ∧
    containsStopSuffix (str "hello") [str "xyz", str "world"] = some false ∧
    str "world" ∈ [str "xyz", str "world"] ∧
    str "hello" ++ str " world!" = str "hello " ++ str "world" ++ str "!" ∧
    (str "hello").length ≤ (str "hello ").length :=
  ⟨by decide, by decide, by decide, by decide,
    flush_safe_after_both_checks (str "hello") [str "xyz", str "world"] (by decide) (by decide)
      (str " world!") (str "world") (str "hello ") (str "!") (by decide) (by decide)⟩

/-- C6: `findStop` returns `(true, s)` for the element `s` of `stops` with the
smallest list index among those occurring in `sequence` (list order, not
position in the text), and `(false, "")` when no element of `stops` occurs in
`sequence`; one of the two cases always applies. -/
theorem findStop_first_in_list_order (sequence : GoString) (stops : List GoString) :
    (∃ (i : Nat) (s : GoString), stops[i]? = some s ∧ s <:+: sequence ∧
      (∀ (j : Nat) (t : GoString), j < i → stops[j]? = some t → ¬ t <:+: sequence) ∧
      findStop sequence stops = (true, s)) ∨
    ((∀ s, s ∈ stops → ¬ s <:+: sequence) ∧ findStop sequence stops = (false, [])) :=
  findStop_cases sequence stops

/-- C7: `containsStopSuffix` returns a value, and that value is `true` exactly
when `sequence` ends with the first `i` bytes of some phrase `s` of `stops`
for some `1 ≤ i ≤ len(s)` (the complete phrase counts, the empty prefix does
not). -/
theorem containsStopSuffix_iff_tail_is_prefix (sequence : GoString) (stops : List GoString) :
    ∃ b, containsStopSuffix sequence stops = some b ∧
      (b = true ↔
        ∃ s, s ∈ stops ∧ ∃ i, 1 ≤ i ∧ i ≤ s.length ∧ s.take i <:+ sequence) :=
  containsStopSuffix_cases sequence stops

end runner

namespace runner

/-- C8: re-split by original lengths.  When `stop` occurs in the concatenation
of `pieces`, the returned list is no longer than `pieces`, agrees with `pieces`
at every index before its last one, and its last element is a prefix of the
fragment of `pieces` at the same index: equal to it when the returned boolean
is `false`, strictly shorter when it is `true`. -/
theorem truncateStop_resplit_by_original_lengths (pieces : List GoString) (stop : GoString)
    (h : stop <:+: strings.Join pieces) :
    ∃ result b, truncateStop pieces stop = some (result, b) ∧
      result.length ≤ pieces.length ∧
      (∀ i : Nat, i + 1 < result.length → result[i]? = pieces[i]?) ∧
      (∀ last : Nat, last + 1 = result.length →
        ∃ r p, result[last]? = some r ∧ pieces[last]? = some p ∧ r <+: p ∧
          (b = false → r = p) ∧ (b = true → r.length < p.length)) := by
  obtain ⟨pre, _, hpre, heq⟩ := truncateStop_of_infix h
  refine ⟨(resplit pieces pre).1, (resplit pieces pre).2, heq, ?_⟩
  rcases resplit_shape pieces pre hpre with ⟨m, hm, hres, _, _⟩ | ⟨m, r, p, hm, hp, hres, _, _, hrp, hlt⟩
  · rw [hres]
    dsimp only
    have hlen : (pieces.take m).length = m := List.length_take_of_le hm
    refine ⟨by simp, ?_, ?_⟩
    · intro i hi
      exact List.getElem?_take_of_lt (by omega)
    · intro last hlast
      have hl : last < pieces.length := by omega
      refine ⟨pieces[last], pieces[last], ?_, List.getElem?_eq_getElem hl, List.prefix_refl _,
        fun _ => rfl, fun hb => (by cases hb)⟩
      rw [List.getElem?_take_of_lt (by omega)]
      exact List.getElem?_eq_getElem hl
  · rw [hres]
    dsimp only
    have hlen : (pieces.take m).length = m := List.length_take_of_le (Nat.le_of_lt hm)
    refine ⟨by simp; omega, ?_, ?_⟩
    · intro i hi
      have hi2 : i < m := by simp [hlen] at hi; omega
      rw [List.getElem?_append_left (by omega)]
      exact List.getElem?_take_of_lt hi2
    · intro last hlast
      have hl : last = m := by simp [hlen] at hlast; omega
      subst hl
      refine ⟨r, p, ?_, hp, hrp, fun hb => (by cases hb), fun _ => hlt⟩
      rw [List.getElem?_append_right (by omega)]
      simp [hlen]

theorem truncateStop_resplit_by_original_lengths_witness :
    str "there!" <:+: strings.Join [str "Hello", str " the", str "re!"] ∧
    ∃ result b, truncateStop [str "Hello", str " the", str "re!"] (str "there!")
        = some (result, b) ∧
      result.length ≤ [str "Hello", str " the", str "re!"].length ∧
      (∀ i : Nat, i + 1 < result.length →
        result[i]? = [str "Hello", str " the", str "re!"][i]?) ∧
      (∀ last : Nat, last + 1 = result.length →
        ∃ r p, result[last]? = some r ∧
          [str "Hello", str " the", str "re!"][last]? = some p ∧ r <+: p ∧
          (b = false → r = p) ∧ (b = true → r.length < p.length)) :=
  ⟨by decide, truncateStop_resplit_by_original_lengths _ _ (by decide)⟩

/-- C9 (as stated) fails: an empty input fragment that lies before the cut is
handed back as an empty fragment.  Here `stop = "b"` occurs in the
concatenation of `["", "a", "b"]` and the result is `["", "a"]`. -/
theorem truncateStop_keeps_empty_input_fragment :
    str "b" <:+: strings.Join [str "", str "a", str "b"] ∧
    truncateStop [str "", str "a", str "b"] (str "b") = some ([str "", str "a"], false) ∧
    ([] : GoString) ∈ [str "", str "a"] :=
  ⟨by decide, by decide, by decide⟩

theorem resplit_empty_entries {ps : List GoString} {rem : GoString}
    (h : rem <+: strings.Join ps) (i : Nat) :
    ((resplit ps rem).1[i]? = some []
      ↔ ps[i]? = some [] ∧ (strings.Join (ps.take i)).length < rem.length) ∧
    ((resplit ps rem).1[i]? = some [] → i + 1 < (resplit ps rem).1.length) ∧
    (rem.length ≤ (strings.Join (ps.take i)).length → (resplit ps rem).1[i]? = none) := by
  rcases resplit_shape ps rem h with ⟨m, hm, hres, hj, hemp⟩ | ⟨m, r, p, hm, hp, hres, hj, hr, _, hlt⟩
  · rw [hres]
    dsimp only
    have hlen : (ps.take m).length = m := List.length_take_of_le hm
    have hremlen : rem.length = (strings.Join (ps.take m)).length := by rw [hj]
    have hstrict : ∀ k, k < m →
        (strings.Join (ps.take k)).length < (strings.Join (ps.take m)).length := by
      intro k hk
      have hm1 : m - 1 < ps.length := by omega
      have hget : ps[m - 1]? = some ps[m - 1] := List.getElem?_eq_getElem hm1
      have hne : ps[m - 1] ≠ [] := by
        intro hnil
        have := hemp (m - 1) ps[m - 1] (by omega) hget hnil
        omega
      have hsucc := join_take_succ hget
      rw [show m - 1 + 1 = m by omega] at hsucc
      have hmono := join_take_length_mono ps (show k ≤ m - 1 by omega)
      have hpos : 0 < (ps[m - 1]).length := List.length_pos.mpr hne
      rw [hsucc, List.length_append]
      omega
    by_cases him : i < m
    · rw [List.getElem?_take_of_lt him]
      refine ⟨⟨fun hi => ⟨hi, by rw [hremlen]; exact hstrict i him⟩, fun hi => hi.1⟩, ?_, ?_⟩
      · intro hi
        rw [hlen]
        exact hemp i [] him hi rfl
      · intro hle
        have := hstrict i him
        omega
    · have hnone : (ps.take m)[i]? = none := List.getElem?_eq_none (by omega)
      rw [hnone]
      refine ⟨⟨fun hi => (by cases hi), ?_⟩, fun hi => (by cases hi), fun _ => rfl⟩
      rintro ⟨_, hlt2⟩
      have := join_take_length_mono ps (show m ≤ i by omega)
      omega
  · rw [hres]
    dsimp only
    have hlen : (ps.take m).length = m := List.length_take_of_le (Nat.le_of_lt hm)
    have hremlen : rem.length = (strings.Join (ps.take m)).length + r.length := by
      rw [← hj, List.length_append]
    have hrpos : 0 < r.length := List.length_pos.mpr hr
    have hsucc : (strings.Join (ps.take (m + 1))).length
        = (strings.Join (ps.take m)).length + p.length := by
      rw [join_take_succ hp, List.length_append]
    rcases Nat.lt_trichotomy i m with him | him | him
    · have hmono := join_take_length_mono ps (Nat.le_of_lt him)
      rw [List.getElem?_append_left (by omega), List.getElem?_take_of_lt him]
      refine ⟨⟨fun hi => ⟨hi, by omega⟩, fun hi => hi.1⟩, ?_, ?_⟩
      · intro _
        simp [hlen]
        omega
      · intro hle
        omega
    · subst him
      have hget : (ps.take i ++ [r])[i]? = some r := by
        rw [List.getElem?_append_right (by omega)]
        simp [hlen]
      rw [hget]
      refine ⟨⟨fun hi => absurd (Option.some.inj hi) hr, ?_⟩,
        fun hi => absurd (Option.some.inj hi) hr, ?_⟩
      · rintro ⟨hnil, _⟩
        rw [hp] at hnil
        have : p = [] := Option.some.inj hnil
        rw [this] at hlt
        simp at hlt
      · intro hle
        omega
    · have hnone : (ps.take m ++ [r])[i]? = none :=
        List.getElem?_eq_none (by simp [hlen]; omega)
      rw [hnone]
      refine ⟨⟨fun hi => (by cases hi), ?_⟩, fun hi => (by cases hi), fun _ => rfl⟩
      rintro ⟨_, hlt2⟩
      have := join_take_length_mono ps (show m + 1 ≤ i by omega)
      omega

/-- C9 (amended): when `stop` occurs in the concatenation of `pieces`, write
`c` for the offset of its first occurrence (the length of the concatenation of
the returned fragments).  The list returned by `truncateStop` has an empty
string at index `i` exactly when the fragment of `pieces` at index `i` is
itself empty and starts strictly before `c`; such an entry is never the last
one; and a fragment that starts at or after `c` has no entry in the result.
So fragments with zero retained length are omitted, while an empty input
fragment lying before the cut is kept as an empty entry. -/
theorem truncateStop_empty_iff_empty_input_before_cut (pieces : List GoString)
    (stop : GoString) (h : stop <:+: strings.Join pieces) :
    ∃ result b, truncateStop pieces stop = some (result, b) ∧
      BeforeFirst stop (strings.Join pieces) (strings.Join result) ∧
      ∀ i : Nat,
        (result[i]? = some []
          ↔ pieces[i]? = some [] ∧
            (strings.Join (pieces.take i)).length < (strings.Join result).length) ∧
        (result[i]? = some [] → i + 1 < result.length) ∧
        ((strings.Join result).length ≤ (strings.Join (pieces.take i)).length →
          result[i]? = none) := by
  obtain ⟨pre, hfirst, hpre, heq⟩ := truncateStop_of_infix h
  refine ⟨(resplit pieces pre).1, (resplit pieces pre).2, heq, ?_, ?_⟩
  · rw [resplit_join hpre]
    exact hfirst
  · intro i
    rw [resplit_join hpre]
    exact resplit_empty_entries hpre i

theorem truncateStop_empty_iff_empty_input_before_cut_witness :
    str "b" <:+: strings.Join [str "", str "a", str "", str "b", str ""] ∧
    ∃ result b,
      truncateStop [str "", str "a", str "", str "b", str ""] (str "b") = some (result, b) ∧
      BeforeFirst (str "b") (strings.Join [str "", str "a", str "", str "b", str ""])
        (strings.Join result) ∧
      ∀ i : Nat,
        (result[i]? = some []
          ↔ [str "", str "a", str "", str "b", str ""][i]? = some [] ∧
            (strings.Join ([str "", str "a", str "", str "b", str ""].take i)).length
              < (strings.Join result).length) ∧
        (result[i]? = some [] → i + 1 < result.length) ∧
        ((strings.Join result).length
            ≤ (strings.Join ([str "", str "a", str "", str "b", str ""].take i)).length →
          result[i]? = none) :=
  ⟨by decide, truncateStop_empty_iff_empty_input_before_cut _ _ (by decide)⟩

/-- C10: the stop-sequence operations have no failing path.  On every input
(empty lists, empty fragments and an empty stop included) no slice expression
of `truncateStop` or `containsStopSuffix` is out of range, so both return a
value, and so does `findStop`, which takes no slice. -/
theorem stop_operations_never_fail (pieces : List GoString) (stop sequence : GoString)
    (stops : List GoString) :
    (∃ result b, truncateStop pieces stop = some (result, b)) ∧
    (∃ b, containsStopSuffix sequence stops = some b) ∧
    (∃ found s, findStop sequence stops = (found, s)) := by
  refine ⟨?_, ?_, ⟨_, _, rfl⟩⟩
  · by_cases h : stop <:+: strings.Join pieces
    · obtain ⟨pre, _, _, heq⟩ := truncateStop_of_infix h
      exact ⟨_, _, heq⟩
    · exact ⟨pieces, false, truncateStop_of_not_infix h⟩
  · obtain ⟨b, hb, _⟩ := containsStopSuffix_cases sequence stops
    exact ⟨b, hb⟩

end runner

/-! ## Detection followed by truncation -/

namespace runner

theorem findStop_true_cases {sequence : GoString} {stops : List GoString} {s : GoString}
    (h : findStop sequence stops = (true, s)) :
    ∃ i : Nat, stops[i]? = some s ∧ s <:+: sequence ∧
      ∀ (j : Nat) (t : GoString), j < i → stops[j]? = some t → ¬ t <:+: sequence := by
  rcases findStop_cases sequence stops with ⟨i, s1, hi, hs, hmin, hres⟩ | ⟨_, hres⟩
  · rw [hres] at h
    have : s1 = s := by simpa using h
    subst this
    exact ⟨i, hi, hs, hmin⟩
  · rw [hres] at h
    simp at h

theorem infix_of_infix_before_first {sub s pre t : GoString} (h : BeforeFirst sub s pre)
    (ht : t <:+: pre) : t <:+: s := by
  obtain ⟨⟨post, hpost⟩, _⟩ := h
  have hpre : pre <:+: s := ⟨[], sub ++ post, by rw [hpost]; simp [List.append_assoc]⟩
  exact ht.trans hpre

/-- C14 (as stated) fails: with `stops = ["b", "a"]` and `pieces = ["a", "b"]`
detection reports `"b"` (first in list order), truncation at `"b"` leaves
`["a"]`, and detection on what is left reports `"a"`. -/
theorem findStop_after_truncateStop_may_find_later_stop :
    findStop (strings.Join [str "a", str "b"]) [str "b", str "a"] = (true, str "b") ∧
    truncateStop [str "a", str "b"] (str "b") = some ([str "a"], false) ∧
    findStop (strings.Join [str "a"]) [str "b", str "a"] = (true, str "a") ∧
    findStop (strings.Join [str "a"]) [str "b", str "a"] ≠ (false, []) :=
  ⟨by decide, by decide, by decide, by decide⟩

/-- C14 (amended): if `findStop` on the concatenation of `pieces` returns
`(true, s)` with `s` non-empty, then the concatenation of the fragments
returned by `truncateStop(pieces, s)` does not contain `s`; `findStop` on it
either returns `(false, "")` or returns a phrase different from `s` that is
listed after `s` in `stops`; it returns `(false, "")` whenever no phrase of
`stops` other than `s` occurs in the retained text. -/
theorem findStop_after_truncateStop (pieces : List GoString) (stops : List GoString)
    (s : GoString) (hfind : findStop (strings.Join pieces) stops = (true, s)) (hne : s ≠ []) :
    ∃ result b, truncateStop pieces s = some (result, b) ∧
      ¬ s <:+: strings.Join result ∧
      (findStop (strings.Join result) stops = (false, []) ∨
        ∃ (i j : Nat) (t : GoString), i < j ∧ stops[i]? = some s ∧ stops[j]? = some t ∧
          t ≠ s ∧ t <:+: strings.Join result ∧
          findStop (strings.Join result) stops = (true, t)) ∧
      ((∀ t, t ∈ stops → t ≠ s → ¬ t <:+: strings.Join result) →
        findStop (strings.Join result) stops = (false, [])) := by
  obtain ⟨i, hi, hs, hmin⟩ := findStop_true_cases hfind
  obtain ⟨pre, hfirst, hpre, heq⟩ := truncateStop_of_infix hs
  refine ⟨(resplit pieces pre).1, (resplit pieces pre).2, heq, ?_⟩
  rw [resplit_join hpre]
  have hnos : ¬ s <:+: pre := not_infix_before_first hne hfirst
  refine ⟨hnos, ?_, ?_⟩
  · rcases findStop_cases pre stops with ⟨j, t, hj, ht, _, hres⟩ | ⟨_, hres⟩
    · right
      have hts : t ≠ s := fun h => hnos (h ▸ ht)
      have hij : i < j := by
        rcases Nat.lt_trichotomy i j with h | h | h
        · exact h
        · subst h
          rw [hi] at hj
          exact absurd (Option.some.inj hj).symm hts
        · exact absurd (infix_of_infix_before_first hfirst ht) (hmin j t h hj)
      exact ⟨i, j, t, hij, hi, hj, hts, ht, hres⟩
    · left
      exact hres
  · intro hclear
    rcases findStop_cases pre stops with ⟨j, t, hj, ht, _, _⟩ | ⟨_, hres⟩
    · have htmem : t ∈ stops := List.getElem?_mem hj
      by_cases hts : t = s
      · exact absurd (hts ▸ ht) hnos
      · exact absurd ht (hclear t htmem hts)
    · exact hres

theorem findStop_after_truncateStop_witness :
    findStop (strings.Join [str "Hello", str " the", str "re!"]) [str "xyz", str "there!"]
      = (true, str "there!") ∧
    str "there!" ≠ [] ∧
    ∃ result b, truncateStop [str "Hello", str " the", str "re!"] (str "there!")
        = some (result, b) ∧
      ¬ str "there!" <:+: strings.Join result ∧
      (findStop (strings.Join result) [str "xyz", str "there!"] = (false, []) ∨
        ∃ (i j : Nat) (t : GoString), i < j ∧
          [str "xyz", str "there!"][i]? = some (str "there!") ∧
          [str "xyz", str "there!"][j]? = some t ∧
          t ≠ str "there!" ∧ t <:+: strings.Join result ∧
          findStop (strings.Join result) [str "xyz", str "there!"] = (true, t)) ∧
      ((∀ t, t ∈ [str "xyz", str "there!"] → t ≠ str "there!" → ¬ t <:+: strings.Join result) →
        findStop (strings.Join result) [str "xyz", str "there!"] = (false, [])) :=
  ⟨by decide, by decide, findStop_after_truncateStop _ _ _ (by decide) (by decide)⟩

/-- C15: `truncateStop` is idempotent in its fragment list.  Writing
`(r, b) = truncateStop(pieces, stop)`, a second call `truncateStop(r, stop)`
returns the same sequence of fragments `r` with boolean `false`. -/
theorem truncateStop_idempotent (pieces : List GoString) (stop : GoString) :
    ∃ r b, truncateStop pieces stop = some (r, b) ∧ truncateStop r stop = some (r, false) := by
  by_cases h : stop <:+: strings.Join pieces
  · obtain ⟨pre, hfirst, hpre, heq⟩ := truncateStop_of_infix h
    refine ⟨(resplit pieces pre).1, (resplit pieces pre).2, heq, ?_⟩
    by_cases hne : stop = []
    · subst hne
      have hpre0 : pre = [] := by
        have := hfirst.2 [] (strings.Join pieces) (by simp)
        exact List.length_eq_zero.mp (Nat.le_zero.mp this)
      subst hpre0
      rw [resplit_nil_text]
      decide
    · apply truncateStop_of_not_infix
      rw [resplit_join hpre]
      exact not_infix_before_first hne hfirst
  · exact ⟨pieces, false, truncateStop_of_not_infix h, truncateStop_of_not_infix h⟩

end runner

/-! ## `ByVariant.Less` -/

namespace strings

theorem Compare_neg_iff_lex :
    ∀ x y : GoString, Compare x y < 0 ↔ List.Lex (· < ·) x y
  | [], [] => by simp [Compare, List.Lex.not_nil_right]
  | [], _ :: _ => by simp [Compare, List.Lex.nil]
  | _ :: _, [] => by simp [Compare, List.Lex.not_nil_right]
  | a :: xs, b :: ys => by
    unfold Compare
    by_cases hab : a < b
    · simp only [hab, if_true]
      exact ⟨fun _ => List.Lex.rel hab, fun _ => by decide⟩
    · by_cases hba : b < a
      · simp only [hab, hba, if_true, if_false]
        constructor
        · intro h; exact absurd h (by decide)
        · intro h
          cases h with
          | cons h => exact absurd hba (lt_irrefl _)
          | rel h => exact absurd h hab
      · have heq : a = b := le_antisymm (not_lt.mp hba) (not_lt.mp hab)
        subst heq
        simp only [hab, if_false]
        rw [Compare_neg_iff_lex xs ys]
        exact List.Lex.cons_iff.symm

end strings

namespace gpu

theorem indexAt_natCast (a : List GpuInfo) (i : Nat) : indexAt a (i : Int) = a[i]? := by
  simp [indexAt]

theorem ByVariantLess_eq {a : List GpuInfo} {i j : Nat} {x y : GpuInfo}
    (hi : a[i]? = some x) (hj : a[j]? = some y) :
    ByVariantLess a (i : Int) (j : Int)
      = some (decide (strings.Compare x.Variant y.Variant < 0)) := by
  simp [ByVariantLess, indexAt_natCast, hi, hj]

theorem ByVariantLess_true_iff {a : List GpuInfo} {i j : Nat} {x y : GpuInfo}
    (hi : a[i]? = some x) (hj : a[j]? = some y) :
    ByVariantLess a (i : Int) (j : Int) = some true
      ↔ List.Lex (· < ·) x.Variant y.Variant := by
  rw [ByVariantLess_eq hi hj, ← strings.Compare_neg_iff_lex]
  simp

theorem ByVariantLess_false_iff {a : List GpuInfo} {i j : Nat} {x y : GpuInfo}
    (hi : a[i]? = some x) (hj : a[j]? = some y) :
    ByVariantLess a (i : Int) (j : Int) = some false
      ↔ ¬ List.Lex (· < ·) x.Variant y.Variant := by
  rw [ByVariantLess_eq hi hj, ← strings.Compare_neg_iff_lex]
  simp

/-- C13: for indices `i`, `j` in range, `ByVariant(a).Less(i, j)` returns a
value, and it is `true` exactly when `a[i].Variant` is strictly smaller than
`a[j].Variant` in bytewise lexicographic order.  Hence the relation is
irreflexive, asymmetric and transitive, relates two entries with different
`Variant` in exactly one direction and relates entries with equal `Variant`
in neither: it depends on the `Variant` fields only. -/
theorem ByVariantLess_strict_order_on_variant (a : List GpuInfo) (i j k : Nat)
    (x y z : GpuInfo) (hi : a[i]? = some x) (hj : a[j]? = some y) (hk : a[k]? = some z) :
    (∃ b, ByVariantLess a (i : Int) (j : Int) = some b) ∧
    (ByVariantLess a (i : Int) (j : Int) = some true
      ↔ List.Lex (· < ·) x.Variant y.Variant) ∧
    ByVariantLess a (i : Int) (i : Int) = some false ∧
    (ByVariantLess a (i : Int) (j : Int) = some true →
      ByVariantLess a (j : Int) (i : Int) = some false) ∧
    (ByVariantLess a (i : Int) (j : Int) = some true →
      ByVariantLess a (j : Int) (k : Int) = some true →
      ByVariantLess a (i : Int) (k : Int) = some true) ∧
    (x.Variant ≠ y.Variant →
      (ByVariantLess a (i : Int) (j : Int) = some true ∧
        ByVariantLess a (j : Int) (i : Int) = some false) ∨
      (ByVariantLess a (i : Int) (j : Int) = some false ∧
        ByVariantLess a (j : Int) (i : Int) = some true)) ∧
    (x.Variant = y.Variant →
      ByVariantLess a (i : Int) (j : Int) = some false ∧
      ByVariantLess a (j : Int) (i : Int) = some false) := by
  have hirr : ∀ v : GoString, ¬ List.Lex (· < ·) v v :=
    fun v => irrefl_of (List.Lex (· < · : Byte → Byte → Prop)) v
  have hasym : ∀ u v : GoString, List.Lex (· < ·) u v → ¬ List.Lex (· < ·) v u :=
    fun u v h => asymm_of (List.Lex (· < · : Byte → Byte → Prop)) h
  refine ⟨⟨_, ByVariantLess_eq hi hj⟩, ByVariantLess_true_iff hi hj, ?_, ?_, ?_, ?_, ?_⟩
  · exact (ByVariantLess_false_iff hi hi).mpr (hirr _)
  · intro h
    exact (ByVariantLess_false_iff hj hi).mpr (hasym _ _ ((ByVariantLess_true_iff hi hj).mp h))
  · intro h1 h2
    exact (ByVariantLess_true_iff hi hk).mpr
      (trans_of (List.Lex (· < · : Byte → Byte → Prop))
        ((ByVariantLess_true_iff hi hj).mp h1) ((ByVariantLess_true_iff hj hk).mp h2))
  · intro hne
    rcases trichotomous_of (List.Lex (· < · : Byte → Byte → Prop)) x.Variant y.Variant
      with h | h | h
    · exact Or.inl ⟨(ByVariantLess_true_iff hi hj).mpr h,
        (ByVariantLess_false_iff hj hi).mpr (hasym _ _ h)⟩
    · exact absurd h hne
    · exact Or.inr ⟨(ByVariantLess_false_iff hi hj).mpr (hasym _ _ h),
        (ByVariantLess_true_iff hj hi).mpr h⟩
  · intro heq
    refine ⟨(ByVariantLess_false_iff hi hj).mpr ?_, (ByVariantLess_false_iff hj hi).mpr ?_⟩
    · rw [heq]; exact hirr _
    · rw [heq]; exact hirr _

end gpu

/-! ## `GpuInfoList.ByLibrary` -/

namespace gpu

theorem mem_firstAppearances {x : GoString} :
    ∀ {xs : List GoString}, x ∈ firstAppearances xs ↔ x ∈ xs
  | [] => by simp [firstAppearances]
  | y :: xs => by
    have ih : x ∈ firstAppearances xs ↔ x ∈ xs := mem_firstAppearances
    simp only [firstAppearances, List.mem_cons, List.mem_filter, decide_eq_true_eq, ih]
    constructor
    · rintro (h | ⟨h, _⟩)
      · exact Or.inl h
      · exact Or.inr h
    · intro h
      by_cases hxy : x = y
      · exact Or.inl hxy
      · rcases h with h | h
        · exact absurd h hxy
        · exact Or.inr ⟨h, hxy⟩

theorem nodup_firstAppearances : ∀ xs : List GoString, (firstAppearances xs).Nodup
  | [] => by simp [firstAppearances]
  | y :: xs => by
    simp only [firstAppearances, List.nodup_cons, List.mem_filter, decide_eq_true_eq]
    exact ⟨fun h => h.2 rfl, (nodup_firstAppearances xs).filter _⟩

theorem firstAppearances_concat (x : GoString) :
    ∀ xs : List GoString,
      firstAppearances (xs ++ [x])
        = if x ∈ xs then firstAppearances xs else firstAppearances xs ++ [x]
  | [] => by simp [firstAppearances]
  | y :: xs => by
    have ih := firstAppearances_concat x xs
    rw [List.cons_append, firstAppearances, ih]
    by_cases hxy : x = y
    · subst hxy
      by_cases hx : x ∈ xs
      · simp [hx, firstAppearances]
      · simp [hx, firstAppearances, List.filter_append]
    · by_cases hx : x ∈ xs
      · simp [hx, hxy, firstAppearances]
      · simp [hx, hxy, firstAppearances, List.filter_append]

theorem byLibraryFind_some {library : GoString} :
    ∀ {libs : List GoString} {i0 k : Nat}, byLibraryFind library libs i0 = some k →
      ∃ i, k = i0 + i ∧ libs[i]? = some library
  | [], _, _, h => by simp [byLibraryFind] at h
  | lib :: libs, i0, k, h => by
    by_cases hl : lib = library
    · simp only [byLibraryFind, hl, if_true, Option.some.injEq] at h
      exact ⟨0, by omega, by simp [hl]⟩
    · simp only [byLibraryFind, hl, if_false] at h
      obtain ⟨i, hk, hi⟩ := byLibraryFind_some h
      exact ⟨i + 1, by omega, by simpa using hi⟩

theorem byLibraryFind_none {library : GoString} :
    ∀ {libs : List GoString} {i0 : Nat}, byLibraryFind library libs i0 = none →
      library ∉ libs
  | [], _, _ => by simp
  | lib :: libs, i0, h => by
    by_cases hl : lib = library
    · simp [byLibraryFind, hl] at h
    · simp only [byLibraryFind, hl, if_false] at h
      have := byLibraryFind_none h
      simp only [List.mem_cons, not_or]
      exact ⟨fun h => hl h.symm, this⟩

end gpu

namespace gpu

theorem groupsFor_append_found {pre : GpuInfoList} {libs : List GoString} {info : GpuInfo}
    {i : Nat} (hnd : libs.Nodup) (hi : libs[i]? = some info.Library) :
    byLibraryAppendAt (groupsFor pre libs) i info = some (groupsFor (pre ++ [info]) libs) := by
  have hlt : i < libs.length := (List.getElem?_eq_some.mp hi).1
  have hget : (groupsFor pre libs)[i]?
      = some (pre.filter fun g => decide (g.Library = info.Library)) := by
    simp [groupsFor, hi]
  simp only [byLibraryAppendAt, hget, Option.some.injEq]
  apply List.ext_getElem?
  intro n
  rw [List.getElem?_set]
  by_cases hin : i = n
  · subst hin
    have hval : libs[i] = info.Library := (List.getElem?_eq_some.mp hi).2
    simp [groupsFor, hlt, hval, List.filter_append]
  · simp only [hin, if_false, groupsFor, List.getElem?_map]
    cases hn : libs[n]? with
    | none => rfl
    | some lib =>
      have hne : ¬ info.Library = lib := by
        intro h
        apply hin
        exact List.getElem?_inj hlt hnd (by rw [hi, hn, h])
      simp [List.filter_append, hne]

theorem groupsFor_append_new {pre : GpuInfoList} {libs : List GoString} {info : GpuInfo}
    (hlibs : ∀ g, g ∈ pre → g.Library ∈ libs) (hnew : info.Library ∉ libs) :
    groupsFor pre libs ++ [[info]] = groupsFor (pre ++ [info]) (libs ++ [info.Library]) := by
  have h1 : ∀ lib, lib ∈ libs →
      List.filter (fun g => decide (g.Library = lib)) (pre ++ [info])
        = List.filter (fun g => decide (g.Library = lib)) pre := by
    intro lib hlib
    have hne : ¬ info.Library = lib := fun h => hnew (h ▸ hlib)
    simp [List.filter_append, hne]
  have h2 : List.filter (fun g => decide (g.Library = info.Library)) pre = [] := by
    rw [List.filter_eq_nil_iff]
    intro g hg hgl
    exact hnew ((of_decide_eq_true hgl) ▸ hlibs g hg)
  simp only [groupsFor, List.map_append, List.map_cons, List.map_nil]
  congr 1
  · exact (List.map_congr_left fun lib hlib => h1 lib hlib).symm
  · simp [List.filter_append, h2]

theorem byLibraryLoop_eq :
    ∀ (l pre : GpuInfoList),
      byLibraryLoop l (byLibrarySpec pre) (firstAppearances (pre.map fun g => g.Library))
        = some (byLibrarySpec (pre ++ l))
  | [], pre => by simp [byLibraryLoop]
  | info :: l, pre => by
    have hnd := nodup_firstAppearances (pre.map fun g => g.Library)
    have hconcat := firstAppearances_concat info.Library (pre.map fun g => g.Library)
    have hih := byLibraryLoop_eq l (pre ++ [info])
    simp only [List.map_append, List.map_cons, List.map_nil, List.append_assoc,
      List.singleton_append] at hih
    unfold byLibraryLoop
    cases hfind : byLibraryFind info.Library
        (firstAppearances (pre.map fun g => g.Library)) 0 with
    | some k =>
      obtain ⟨i, hk, hi⟩ := byLibraryFind_some hfind
      have hk : k = i := by omega
      subst hk
      have hmem : info.Library ∈ pre.map fun g => g.Library :=
        mem_firstAppearances.mp (List.getElem?_mem hi)
      rw [if_pos hmem] at hconcat
      simp only [byLibrarySpec]
      rw [groupsFor_append_found hnd hi]
      simp only [byLibrarySpec, List.map_append, List.map_cons, List.map_nil, hconcat] at hih
      simpa [List.map_append] using hih
    | none =>
      have hnew := byLibraryFind_none hfind
      have hmem : info.Library ∉ pre.map fun g => g.Library :=
        fun h => hnew (mem_firstAppearances.mpr h)
      rw [if_neg hmem] at hconcat
      simp only [byLibrarySpec]
      rw [groupsFor_append_new (fun g hg => mem_firstAppearances.mpr (List.mem_map_of_mem _ hg))
        hnew]
      simp only [byLibrarySpec, List.map_append, List.map_cons, List.map_nil, hconcat] at hih
      simpa [List.map_append] using hih

theorem ByLibrary_eq_spec (l : GpuInfoList) : ByLibrary l = some (byLibrarySpec l) := by
  have := byLibraryLoop_eq l []
  simpa [ByLibrary, byLibrarySpec, groupsFor, firstAppearances] using this

end gpu

namespace gpu

theorem flatten_groupsFor_perm (l : GpuInfoList) :
    ∀ libs : List GoString, libs.Nodup →
      (groupsFor l libs).flatten.Perm (l.filter fun g => decide (g.Library ∈ libs))
  | [], _ => by simp [groupsFor]
  | lib :: libs, hnd => by
    have hnot : lib ∉ libs := (List.nodup_cons.mp hnd).1
    have ih := flatten_groupsFor_perm l libs (List.nodup_cons.mp hnd).2
    have hsplit := List.filter_append_perm (fun g : GpuInfo => decide (g.Library = lib))
      (l.filter fun g => decide (g.Library ∈ lib :: libs))
    have h1 : List.filter (fun g : GpuInfo => decide (g.Library = lib))
        (l.filter fun g => decide (g.Library ∈ lib :: libs))
        = l.filter fun g => decide (g.Library = lib) := by
      rw [List.filter_filter]
      apply List.filter_congr
      intro g _
      by_cases hg : g.Library = lib <;> simp [hg]
    have h2 : List.filter (fun g : GpuInfo => !decide (g.Library = lib))
        (l.filter fun g => decide (g.Library ∈ lib :: libs))
        = l.filter fun g => decide (g.Library ∈ libs) := by
      rw [List.filter_filter]
      apply List.filter_congr
      intro g _
      by_cases hg : g.Library = lib
      · simp [hg, hnot]
      · simp [hg]
    rw [h1, h2] at hsplit
    have hcons : (groupsFor l (lib :: libs)).flatten
        = (l.filter fun g => decide (g.Library = lib)) ++ (groupsFor l libs).flatten := by
      simp [groupsFor]
    rw [hcons]
    exact (List.Perm.append_left _ ih).trans hsplit

/-- C12: `l.ByLibrary()` returns, for each distinct `Library` value of `l` in
order of first appearance, exactly the sublist of `l` whose entries have that
`Library`, in input order.  Consequently every group is non-empty, all entries
of a group share one `Library`, no two groups share a `Library`, and the groups
concatenated are a permutation of `l`. -/
theorem ByLibrary_groups_by_first_appearance (l : GpuInfoList) :
    ∃ groups, ByLibrary l = some groups ∧
      groups = ((firstAppearances (l.map fun g => g.Library)).map fun lib =>
        l.filter fun g => decide (g.Library = lib)) ∧
      (∀ group, group ∈ groups → group ≠ []) ∧
      (∀ group, group ∈ groups → ∀ x, x ∈ group → ∀ y, y ∈ group → x.Library = y.Library) ∧
      groups.Pairwise (fun g1 g2 => ∀ x, x ∈ g1 → ∀ y, y ∈ g2 → x.Library ≠ y.Library) ∧
      groups.flatten.Perm l := by
  refine ⟨byLibrarySpec l, ByLibrary_eq_spec l, rfl, ?_, ?_, ?_, ?_⟩
  · intro group hgroup hnil
    simp only [byLibrarySpec, groupsFor, List.mem_map] at hgroup
    obtain ⟨lib, hlib, rfl⟩ := hgroup
    have hmem := mem_firstAppearances.mp hlib
    obtain ⟨g, hg, hgl⟩ := List.mem_map.mp hmem
    rw [List.filter_eq_nil_iff] at hnil
    exact hnil g hg (by simp [hgl])
  · intro group hgroup x hx y hy
    simp only [byLibrarySpec, groupsFor, List.mem_map] at hgroup
    obtain ⟨lib, _, rfl⟩ := hgroup
    have h1 := of_decide_eq_true (List.mem_filter.mp hx).2
    have h2 := of_decide_eq_true (List.mem_filter.mp hy).2
    rw [h1, h2]
  · simp only [byLibrarySpec, groupsFor, List.pairwise_map]
    refine (nodup_firstAppearances _).imp ?_
    intro lib1 lib2 hne x hx y hy hxy
    have h1 := of_decide_eq_true (List.mem_filter.mp hx).2
    have h2 := of_decide_eq_true (List.mem_filter.mp hy).2
    exact hne (by rw [← h1, ← h2, hxy])
  · have hperm := flatten_groupsFor_perm l _ (nodup_firstAppearances (l.map fun g => g.Library))
    have hall : (l.filter fun g =>
        decide (g.Library ∈ firstAppearances (l.map fun g => g.Library))) = l := by
      rw [List.filter_eq_self]
      intro g hg
      simp only [decide_eq_true_eq]
      exact mem_firstAppearances.mpr (List.mem_map_of_mem _ hg)
    rw [hall] at hperm
    exact hperm

theorem ByVariantLess_strict_order_on_variant_witness :
    [({ Variant := str "v12" } : GpuInfo), { Variant := str "v11", ID := str "0" },
        { Variant := str "v2" }][1]? = some { Variant := str "v11", ID := str "0" } ∧
    [({ Variant := str "v12" } : GpuInfo), { Variant := str "v11", ID := str "0" },
        { Variant := str "v2" }][0]? = some { Variant := str "v12" } ∧
    [({ Variant := str "v12" } : GpuInfo), { Variant := str "v11", ID := str "0" },
        { Variant := str "v2" }][2]? = some { Variant := str "v2" } ∧
    ByVariantLess [{ Variant := str "v12" }, { Variant := str "v11", ID := str "0" },
        { Variant := str "v2" }] 1 0 = some true ∧
    ByVariantLess [{ Variant := str "v12" }, { Variant := str "v11", ID := str "0" },
        { Variant := str "v2" }] 0 2 = some true ∧
    ByVariantLess [{ Variant := str "v12" }, { Variant := str "v11", ID := str "0" },
        { Variant := str "v2" }] 1 2 = some true :=
  ⟨by decide, by decide, by decide, by decide, by decide,
    (ByVariantLess_strict_order_on_variant
      [{ Variant := str "v12" }, { Variant := str "v11", ID := str "0" },
        { Variant := str "v2" }]
      1 0 2 { Variant := str "v11", ID := str "0" } { Variant := str "v12" }
      { Variant := str "v2" }
      (by decide) (by decide) (by decide)).2.2.2.2.1 (by decide) (by decide)⟩

end gpu

/-! ## The table of `TestRefreshRunners`, evaluated on the model of `ServersForGpu` -/

namespace runners

theorem test_ServersForGpu_other_platforms :
    ServersForGpu (str "linux") (str "amd64") testCache [{ Library := str "cpu" }]
      = [str "cpu"] ∧
    ServersForGpu (str "linux") (str "amd64") testCache
      [{ Library := str "cpu", Variant := str "avx" }] = [str "cpu_avx"] ∧
    ServersForGpu (str "linux") (str "amd64") testCache [{ Library := str "foo" }]
      = [str "foo_v11", str "foo_v12", str "cpu"] ∧
    ServersForGpu (str "linux") (str "amd64") testCache
      [{ Library := str "foo", Variant := str "v11" }]
      = [str "foo_v11", str "foo_v12", str "cpu"] ∧
    ServersForGpu (str "linux") (str "amd64") testCache
      [{ Library := str "foo", Variant := str "v12" }]
      = [str "foo_v12", str "foo_v11", str "cpu"] ∧
    ServersForGpu (str "linux") (str "amd64") testCache
      [{ Library := str "foo", Variant := str "v11" },
        { Library := str "foo", Variant := str "v12" }]
      = [str "foo_v11", str "foo_v12", str "cpu"] := by
  refine ⟨?_, ?_, ?_, ?_, ?_, ?_⟩ <;> decide

theorem test_ServersForGpu_darwin_arm64 :
    ServersForGpu (str "darwin") (str "arm64") testCache [{ Library := str "cpu" }]
      = [str "cpu"] ∧
    ServersForGpu (str "darwin") (str "arm64") testCache
      [{ Library := str "cpu", Variant := str "avx" }] = [str "cpu_avx"] ∧
    ServersForGpu (str "darwin") (str "arm64") testCache [{ Library := str "foo" }]
      = [str "foo_v11", str "foo_v12"] ∧
    ServersForGpu (str "darwin") (str "arm64") testCache
      [{ Library := str "foo", Variant := str "v11" }]
      = [str "foo_v11", str "foo_v12"] ∧
    ServersForGpu (str "darwin") (str "arm64") testCache
      [{ Library := str "foo", Variant := str "v12" }]
      = [str "foo_v12", str "foo_v11"] ∧
    ServersForGpu (str "darwin") (str "arm64") testCache
      [{ Library := str "foo", Variant := str "v11" },
        { Library := str "foo", Variant := str "v12" }]
      = [str "foo_v11", str "foo_v12"] := by
  refine ⟨?_, ?_, ?_, ?_, ?_, ?_⟩ <;> decide

end runners

/-! ## Order of the answer of `ServersForGpu` -/

namespace strings

theorem Compare_pos_iff_lex :
    ∀ x y : GoString, 0 < Compare x y ↔ List.Lex (· < ·) y x
  | [], [] => by simp [Compare, List.Lex.not_nil_right]
  | [], _ :: _ => by simp [Compare, List.Lex.not_nil_right]
  | _ :: _, [] => by simp [Compare, List.Lex.nil]
  | a :: xs, b :: ys => by
    unfold Compare
    by_cases hab : a < b
    · simp only [hab, if_true]
      constructor
      · intro h; exact absurd h (by decide)
      · intro h
        cases h with
        | cons h => exact absurd hab (lt_irrefl _)
        | rel h => exact absurd h (lt_asymm hab)
    · by_cases hba : b < a
      · simp only [hab, hba, if_true, if_false]
        exact ⟨fun _ => List.Lex.rel hba, fun _ => by decide⟩
      · have heq : a = b := le_antisymm (not_lt.mp hba) (not_lt.mp hab)
        subst heq
        simp only [hab, if_false]
        rw [Compare_pos_iff_lex xs ys]
        exact List.Lex.cons_iff.symm

theorem Compare_le_zero_iff (x y : GoString) :
    Compare x y ≤ 0 ↔ ¬ List.Lex (· < ·) y x := by
  rw [← Compare_pos_iff_lex]
  omega

theorem lex_append_left (p : GoString) {x y : GoString} (h : List.Lex (· < ·) x y) :
    List.Lex (· < ·) (p ++ x) (p ++ y) := by
  induction p with
  | nil => exact h
  | cons a p ih => exact List.Lex.cons ih

end strings

namespace gpu

theorem firstAppearances_of_nodup : ∀ {xs : List GoString}, xs.Nodup → firstAppearances xs = xs
  | [], _ => rfl
  | x :: xs, h => by
    have hx : x ∉ xs := (List.nodup_cons.mp h).1
    rw [firstAppearances, firstAppearances_of_nodup (List.nodup_cons.mp h).2]
    congr 1
    rw [List.filter_eq_self]
    intro y hy
    simp only [decide_eq_true_eq]
    exact fun hyx => hx (hyx ▸ hy)

theorem firstAppearances_append (ys : List GoString) :
    ∀ xs : List GoString,
      firstAppearances (xs ++ ys)
        = firstAppearances xs ++ (firstAppearances ys).filter fun y => decide (y ∉ xs)
  | [] => by simp [firstAppearances]
  | x :: xs => by
    rw [List.cons_append, firstAppearances, firstAppearances_append ys xs, firstAppearances,
      List.filter_append, List.filter_filter, List.cons_append]
    congr 2
    apply List.filter_congr
    intro y _
    by_cases hyx : y = x <;> simp [hyx]

theorem firstAppearances_append_of_subset {xs ys : List GoString} (hnd : xs.Nodup)
    (hsub : ∀ y, y ∈ ys → y ∈ xs) : firstAppearances (xs ++ ys) = xs := by
  rw [firstAppearances_append, firstAppearances_of_nodup hnd]
  have : (firstAppearances ys).filter (fun y => decide (y ∉ xs)) = [] := by
    rw [List.filter_eq_nil_iff]
    intro y hy
    simp only [decide_eq_true_eq, not_not]
    exact hsub y (mem_firstAppearances.mp hy)
  rw [this, List.append_nil]

end gpu

namespace runners

theorem exact_filter_eq {available : List RunnerVariant} (hnd : available.Nodup)
    (lib v : GoString) :
    (available.filter fun r => decide (r.library = lib)).filter
        (fun r => decide (r.variant = v))
      = if (⟨lib, v⟩ : RunnerVariant) ∈ available then [⟨lib, v⟩] else [] := by
  have h1 : (available.filter fun r => decide (r.library = lib)).filter
        (fun r => decide (r.variant = v))
      = available.filter fun r => decide (r = (⟨lib, v⟩ : RunnerVariant)) := by
    rw [List.filter_filter]
    apply List.filter_congr
    intro r _
    cases r with
    | mk l w =>
      by_cases hl : l = lib <;> by_cases hw : w = v <;> simp [hl, hw]
  rw [h1, List.filter_eq]
  by_cases hmem : (⟨lib, v⟩ : RunnerVariant) ∈ available
  · rw [if_pos hmem, List.count_eq_one_of_mem hnd hmem]
    rfl
  · rw [if_neg hmem, List.count_eq_zero_of_not_mem hmem]
    rfl

theorem candidatesFor_of_gpu_library {available : List RunnerVariant} (hnd : available.Nodup)
    {d : gpu.GpuInfo} (hlib : d.Library ≠ str "cpu") :
    candidatesFor available d
      = (if (⟨d.Library, d.Variant⟩ : RunnerVariant) ∈ available
          then [⟨d.Library, d.Variant⟩] else [])
        ++ ((available.filter fun r => decide (r.library = d.Library)).filter
              fun r => decide (r.variant ≠ d.Variant)).insertionSort
            fun a b => strings.Compare a.variant b.variant ≤ 0 := by
  simp only [candidatesFor, if_neg hlib]
  rw [exact_filter_eq hnd]

theorem candidatesFor_of_cpu_library {available : List RunnerVariant} (hnd : available.Nodup)
    {c : gpu.GpuInfo} (hlib : c.Library = str "cpu") :
    candidatesFor available c
      = if (⟨str "cpu", c.Variant⟩ : RunnerVariant) ∈ available
          then [⟨str "cpu", c.Variant⟩] else [] := by
  simp only [candidatesFor, if_pos hlib]
  rw [hlib, exact_filter_eq hnd]

theorem mem_candidatesFor_of_gpu_library {available : List RunnerVariant}
    {d : gpu.GpuInfo} (hlib : d.Library ≠ str "cpu") (r : RunnerVariant) :
    r ∈ candidatesFor available d ↔ r ∈ available ∧ r.library = d.Library := by
  simp only [candidatesFor, if_neg hlib, List.mem_append, List.mem_insertionSort,
    List.mem_filter, decide_eq_true_eq]
  constructor
  · rintro (⟨h, _⟩ | ⟨h, _⟩) <;> exact h
  · intro h
    by_cases hv : r.variant = d.Variant
    · exact Or.inl ⟨h, hv⟩
    · exact Or.inr ⟨h, by simpa using hv⟩

theorem nodup_candidatesFor {available : List RunnerVariant} (hnd : available.Nodup)
    (d : gpu.GpuInfo) : (candidatesFor available d).Nodup := by
  have hexact : ((available.filter fun r => decide (r.library = d.Library)).filter
      fun r => decide (r.variant = d.Variant)).Nodup := (hnd.filter _).filter _
  have hothers : (((available.filter fun r => decide (r.library = d.Library)).filter
      fun r => decide (r.variant ≠ d.Variant)).insertionSort
        fun a b => strings.Compare a.variant b.variant ≤ 0).Nodup :=
    ((List.perm_insertionSort _ _).nodup_iff).mpr ((hnd.filter _).filter _)
  simp only [candidatesFor]
  split
  · exact hexact
  · refine List.Nodup.append hexact hothers ?_
    intro r h1 h2
    have hv1 := of_decide_eq_true (List.mem_filter.mp h1).2
    have hv2 := of_decide_eq_true
      (List.mem_filter.mp ((List.mem_insertionSort _).mp h2)).2
    exact hv2 hv1

theorem cpuRunner_name : RunnerVariant.name ⟨str "cpu", []⟩ = str "cpu" := by
  simp [RunnerVariant.name]

end runners

namespace runners

theorem str_underscore : str "_" = [(95 : Byte)] := by decide

theorem name_lex_of_variant_lex {a b : RunnerVariant} (hlib : a.library = b.library)
    (h : List.Lex (· < ·) a.variant b.variant) :
    List.Lex (· < ·) a.name b.name := by
  have hb : b.variant ≠ [] := by
    intro hnil
    rw [hnil] at h
    exact List.Lex.not_nil_right _ _ h
  have h2 : b.name = b.library ++ ((95 : Byte) :: b.variant) := by
    simp [RunnerVariant.name, hb, str_underscore]
  by_cases ha : a.variant = []
  · have h1 : a.name = b.library ++ [] := by simp [RunnerVariant.name, ha, hlib]
    rw [h1, h2]
    exact strings.lex_append_left _ List.Lex.nil
  · have h1 : a.name = b.library ++ ((95 : Byte) :: a.variant) := by
      simp [RunnerVariant.name, ha, hlib, str_underscore]
    rw [h1, h2]
    exact strings.lex_append_left _ (List.Lex.cons h)

theorem variant_le_total (a b : RunnerVariant) :
    strings.Compare a.variant b.variant ≤ 0 ∨ strings.Compare b.variant a.variant ≤ 0 := by
  rw [strings.Compare_le_zero_iff, strings.Compare_le_zero_iff]
  by_cases h : List.Lex (· < ·) b.variant a.variant
  · exact Or.inr (asymm_of (List.Lex (· < · : Byte → Byte → Prop)) h)
  · exact Or.inl h

theorem variant_le_trans (a b c : RunnerVariant)
    (hab : strings.Compare a.variant b.variant ≤ 0)
    (hbc : strings.Compare b.variant c.variant ≤ 0) :
    strings.Compare a.variant c.variant ≤ 0 := by
  rw [strings.Compare_le_zero_iff] at hab hbc ⊢
  intro hca
  rcases trichotomous_of (List.Lex (· < · : Byte → Byte → Prop)) a.variant b.variant
    with h | h | h
  · exact hbc (trans_of (List.Lex (· < · : Byte → Byte → Prop)) hca h)
  · exact hbc (h ▸ hca)
  · exact hab h

theorem others_names_ascending {available : List RunnerVariant} (hnd : available.Nodup)
    (lib v : GoString) :
    ((((available.filter fun r => decide (r.library = lib)).filter
        fun r => decide (r.variant ≠ v)).insertionSort
          fun a b => strings.Compare a.variant b.variant ≤ 0).map RunnerVariant.name).Pairwise
      (List.Lex (· < ·)) := by
  haveI : IsTotal RunnerVariant (fun a b => strings.Compare a.variant b.variant ≤ 0) :=
    ⟨variant_le_total⟩
  haveI : IsTrans RunnerVariant (fun a b => strings.Compare a.variant b.variant ≤ 0) :=
    ⟨variant_le_trans⟩
  have hsorted := List.sorted_insertionSort
    (fun a b : RunnerVariant => strings.Compare a.variant b.variant ≤ 0)
    ((available.filter fun r => decide (r.library = lib)).filter
      fun r => decide (r.variant ≠ v))
  have hnodup : (((available.filter fun r => decide (r.library = lib)).filter
      fun r => decide (r.variant ≠ v)).insertionSort
        fun a b => strings.Compare a.variant b.variant ≤ 0).Nodup :=
    ((List.perm_insertionSort _ _).nodup_iff).mpr ((hnd.filter _).filter _)
  rw [List.pairwise_map]
  refine List.Pairwise.imp_of_mem ?_ (List.Pairwise.and hsorted hnodup)
  intro a b ha hb hab
  have hla := of_decide_eq_true
    (List.mem_filter.mp (List.mem_filter.mp ((List.mem_insertionSort _).mp ha)).1).2
  have hlb := of_decide_eq_true
    (List.mem_filter.mp (List.mem_filter.mp ((List.mem_insertionSort _).mp hb)).1).2
  have hlib : a.library = b.library := by rw [hla, hlb]
  have hvne : a.variant ≠ b.variant := by
    intro hv
    apply hab.2
    cases a; cases b
    simp_all
  have hle := (strings.Compare_le_zero_iff _ _).mp hab.1
  rcases trichotomous_of (List.Lex (· < · : Byte → Byte → Prop)) a.variant b.variant
    with h | h | h
  · exact name_lex_of_variant_lex hlib h
  · exact absurd h hvne
  · exact absurd h hle

end runners

namespace runners

theorem ranked_of_same_gpu_library {available : List RunnerVariant}
    (hnames : (available.map RunnerVariant.name).Nodup)
    (hcpu : (⟨str "cpu", []⟩ : RunnerVariant) ∈ available)
    {d : gpu.GpuInfo} {rest : List gpu.GpuInfo} (hlib : d.Library ≠ str "cpu")
    (hrest : ∀ g, g ∈ rest → g.Library = d.Library) :
    gpu.firstAppearances
        (((d :: rest).flatMap (candidatesFor available)).map RunnerVariant.name)
      = (candidatesFor available d).map RunnerVariant.name ∧
    ((candidatesFor available d).map RunnerVariant.name).Nodup ∧
    str "cpu" ∉ (candidatesFor available d).map RunnerVariant.name := by
  have hnd : available.Nodup := List.Nodup.of_map _ hnames
  have hinj := List.inj_on_of_nodup_map hnames
  have hsubset : ∀ r, r ∈ candidatesFor available d → r ∈ available :=
    fun r hr => ((mem_candidatesFor_of_gpu_library hlib r).mp hr).1
  have hnodup : ((candidatesFor available d).map RunnerVariant.name).Nodup :=
    List.Nodup.map_on
      (fun x hx y hy hxy => hinj (hsubset x hx) (hsubset y hy) hxy)
      (nodup_candidatesFor hnd d)
  refine ⟨?_, hnodup, ?_⟩
  · rw [List.flatMap_cons, List.map_append]
    apply gpu.firstAppearances_append_of_subset hnodup
    intro y hy
    obtain ⟨r, hr, rfl⟩ := List.mem_map.mp hy
    obtain ⟨g, hg, hrg⟩ := List.mem_flatMap.mp hr
    have hgl : g.Library = d.Library := hrest g hg
    have hgcpu : g.Library ≠ str "cpu" := by rw [hgl]; exact hlib
    have hmem := (mem_candidatesFor_of_gpu_library hgcpu r).mp hrg
    exact List.mem_map_of_mem _
      ((mem_candidatesFor_of_gpu_library hlib r).mpr ⟨hmem.1, hmem.2.trans hgl⟩)
  · intro hin
    obtain ⟨r, hr, hname⟩ := List.mem_map.mp hin
    have hmem := (mem_candidatesFor_of_gpu_library hlib r).mp hr
    have hr2 : r = ⟨str "cpu", []⟩ := hinj hmem.1 hcpu (by rw [hname, cpuRunner_name])
    apply hlib
    rw [← hmem.2, hr2]

theorem ServersForGpu_of_same_gpu_library (goos goarch : GoString)
    {available : List RunnerVariant}
    (hnames : (available.map RunnerVariant.name).Nodup)
    (hcpu : (⟨str "cpu", []⟩ : RunnerVariant) ∈ available)
    {d : gpu.GpuInfo} {rest : List gpu.GpuInfo} (hlib : d.Library ≠ str "cpu")
    (hrest : ∀ g, g ∈ rest → g.Library = d.Library) :
    ServersForGpu goos goarch available (d :: rest)
      = (candidatesFor available d).map RunnerVariant.name
        ++ (if goos = str "darwin" ∧ goarch = str "arm64" then [] else [str "cpu"]) := by
  obtain ⟨hranked, _, hnot⟩ := ranked_of_same_gpu_library hnames hcpu hlib hrest
  have hany : (d :: rest).any (fun g => decide (g.Library ≠ str "cpu")) = true := by
    simp [hlib]
  simp only [ServersForGpu, hranked, hany, Bool.true_or, Bool.and_true, cpuRunner_name]
  by_cases hplat : goos = str "darwin" ∧ goarch = str "arm64"
  · have hs : cpuFallbackSuppressed goos goarch = true := by
      simp [cpuFallbackSuppressed, hplat.1, hplat.2]
    rw [if_pos hplat]
    simp [hs]
  · have hs : cpuFallbackSuppressed goos goarch = false := by
      simp only [cpuFallbackSuppressed, Bool.and_eq_false_iff, decide_eq_false_iff_not]
      by_cases h1 : goos = str "darwin"
      · exact Or.inr fun h2 => hplat ⟨h1, h2⟩
      · exact Or.inl h1
    rw [if_neg hplat]
    simp only [hs, Bool.not_false, true_and]
    rw [if_pos ⟨hcpu, hnot⟩]

theorem ServersForGpu_of_cpu_exact (goos goarch : GoString)
    {available : List RunnerVariant}
    (hnames : (available.map RunnerVariant.name).Nodup)
    {c : gpu.GpuInfo} (hc : c.Library = str "cpu")
    (hexact : (⟨str "cpu", c.Variant⟩ : RunnerVariant) ∈ available) :
    ServersForGpu goos goarch available [c]
      = [RunnerVariant.name ⟨str "cpu", c.Variant⟩] := by
  have hnd : available.Nodup := List.Nodup.of_map _ hnames
  have hcand := candidatesFor_of_cpu_library hnd hc
  rw [if_pos hexact] at hcand
  simp [ServersForGpu, hcand, gpu.firstAppearances, hc]

end runners

namespace runners

/-- C11: over a cache with unique runner names that holds the bare `cpu`
runner, for a non-empty descriptor list whose entries all name one non-`cpu`
library `L`, `ServersForGpu` returns each runner name at most once, in this
order: the exact match `L_<variant>` of the requested variant (that of the
first descriptor) when the cache holds it, then the remaining available
variants of `L` in ascending lexicographic order, then `cpu` last, except on
darwin/arm64 where `cpu` is not appended.  For a single descriptor of library
`cpu` whose exact match is in the cache it returns that exact match only. -/
theorem ServersForGpu_exact_then_sorted_then_cpu (goos goarch : GoString)
    (available : List RunnerVariant) (d : gpu.GpuInfo) (rest : List gpu.GpuInfo)
    (c : gpu.GpuInfo)
    (hnames : (available.map RunnerVariant.name).Nodup)
    (hcpu : (⟨str "cpu", []⟩ : RunnerVariant) ∈ available)
    (hlib : d.Library ≠ str "cpu")
    (hrest : ∀ g, g ∈ rest → g.Library = d.Library)
    (hc : c.Library = str "cpu")
    (hexact : (⟨str "cpu", c.Variant⟩ : RunnerVariant) ∈ available) :
    (∃ others : List RunnerVariant,
      ServersForGpu goos goarch available (d :: rest)
        = (if (⟨d.Library, d.Variant⟩ : RunnerVariant) ∈ available
            then [RunnerVariant.name ⟨d.Library, d.Variant⟩] else [])
          ++ others.map RunnerVariant.name
          ++ (if goos = str "darwin" ∧ goarch = str "arm64" then [] else [str "cpu"]) ∧
      (∀ r, r ∈ others ↔ r ∈ available ∧ r.library = d.Library ∧ r.variant ≠ d.Variant) ∧
      (others.map RunnerVariant.name).Pairwise (List.Lex (· < ·)) ∧
      (ServersForGpu goos goarch available (d :: rest)).Nodup) ∧
    ServersForGpu goos goarch available [c] = [RunnerVariant.name ⟨str "cpu", c.Variant⟩] := by
  have hnd : available.Nodup := List.Nodup.of_map _ hnames
  have hserv := ServersForGpu_of_same_gpu_library goos goarch hnames hcpu hlib hrest
  obtain ⟨_, hnodup, hnot⟩ := ranked_of_same_gpu_library hnames hcpu hlib hrest
  refine ⟨⟨_, ?_, ?_, others_names_ascending hnd d.Library d.Variant, ?_⟩,
    ServersForGpu_of_cpu_exact goos goarch hnames hc hexact⟩
  · rw [hserv, candidatesFor_of_gpu_library hnd hlib, List.map_append]
    congr 2
    split <;> rfl
  · intro r
    simp only [List.mem_insertionSort, List.mem_filter, decide_eq_true_eq, and_assoc]
  · rw [hserv]
    refine List.Nodup.append hnodup ?_ ?_
    · split
      · exact List.nodup_nil
      · exact List.nodup_singleton _
    · intro x hx1 hx2
      split at hx2
      · simp at hx2
      · have : x = str "cpu" := by simpa using hx2
        exact hnot (this ▸ hx1)

theorem ServersForGpu_exact_then_sorted_then_cpu_witness :
    (testCache.map RunnerVariant.name).Nodup ∧
    (⟨str "cpu", []⟩ : RunnerVariant) ∈ testCache ∧
    str "foo" ≠ str "cpu" ∧
    (∀ g : gpu.GpuInfo, g ∈ [({ Library := str "foo", Variant := str "v11" } : gpu.GpuInfo)] →
      g.Library = str "foo") ∧
    (⟨str "cpu", str "avx"⟩ : RunnerVariant) ∈ testCache ∧
    (∃ others : List RunnerVariant,
      ServersForGpu (str "linux") (str "amd64") testCache
          [{ Library := str "foo", Variant := str "v12" },
            { Library := str "foo", Variant := str "v11" }]
        = (if (⟨str "foo", str "v12"⟩ : RunnerVariant) ∈ testCache
            then [RunnerVariant.name ⟨str "foo", str "v12"⟩] else [])
          ++ others.map RunnerVariant.name
          ++ (if str "linux" = str "darwin" ∧ str "amd64" = str "arm64" then []
              else [str "cpu"]) ∧
      (∀ r, r ∈ others ↔ r ∈ testCache ∧ r.library = str "foo" ∧ r.variant ≠ str "v12") ∧
      (others.map RunnerVariant.name).Pairwise (List.Lex (· < ·)) ∧
      (ServersForGpu (str "linux") (str "amd64") testCache
          [{ Library := str "foo", Variant := str "v12" },
            { Library := str "foo", Variant := str "v11" }]).Nodup) ∧
    ServersForGpu (str "linux") (str "amd64") testCache
        [{ Library := str "cpu", Variant := str "avx" }]
      = [RunnerVariant.name ⟨str "cpu", str "avx"⟩] :=
  ⟨by decide, by decide, by decide, by decide, by decide,
    ServersForGpu_exact_then_sorted_then_cpu (str "linux") (str "amd64") testCache
      { Library := str "foo", Variant := str "v12" }
      [{ Library := str "foo", Variant := str "v11" }]
      { Library := str "cpu", Variant := str "avx" }
      (by decide) (by decide) (by decide) (by decide) rfl (by decide)⟩

end runners
